import Mathlib

/-! Three-tier memory simulator.

A shallow embedding of `MemorySimulator` (src/project_src_text.cpp) and the
properties of its tier engine.

Modelling conventions.
* `vector<string>` is `List String`; `push_back` appends at the end, `find` followed by
  `erase(it)` removes the first occurrence, `erase(begin())` removes the head, and
  `erase(it)` on the iterator returned by `min_element` removes the entry at that position.
* `map<string,int> access_counts` is a total function `String → Int` (a key that is absent
  reads as `0`, which is what `operator[]` yields).
* Counters, clock and the time fields of a process are 32-bit `int`s: every `++` and `+=`
  on them goes through `wrap_int`, so a result beyond `INT_MAX` wraps to the negative
  range.
* The capacities are `int`s.  In `v.size() >= cap` the `int` is converted to `size_t`,
  which is `toSizeT`; a well-formed `int` satisfies `IsInt`, and a vector is shorter than
  `2 ^ 64`.
* Dereferencing the result of `min_element` on an empty vector and `erase(begin())` on an
  empty vector are undefined behaviour; the embedding returns a `Fault` there, and every
  method that can reach one returns `Except Fault _`.
* `std::sort` does not fix the order of processes with equal arrival times; the
  rearrangement it computes is a parameter of `run_simulation`, and `IsStdSort` is what the
  library promises about it.  `std_sort` is the algorithm of libstdc++ (`std::__sort` in
  bits/stl_algo.h: introsort loop with threshold 16, then the final insertion sort); the
  heapsort it falls back to when the depth limit is used up is its parameter `heap_sort`.
* `add_process` leaves `start_time` and `end_time` uninitialised; their contents are
  parameters of the embedding.
* Of `print_stats` only the operands of the per-process division are modelled
  (`average_operands`); floating-point arithmetic and output are not.
-/

namespace MemSim

/-- The two places where the source has undefined behaviour. -/
inductive Fault where
  /-- The iterator returned by `min_element` on an empty tier is dereferenced and erased. -/
  | emptyVictim
  /-- The statement `disk.erase(disk.begin())` runs on an empty disk. -/
  | emptyErase
deriving DecidableEq, Repr

/-- Record `struct MemoryAccess`. -/
structure MemoryAccess where
  address : String
  access_time : Int
  found_in : String
deriving DecidableEq, Repr

/-- Record `struct Process`. -/
structure Process where
  id : Int
  arrival_time : Int
  addresses_to_access : List String
  memory_accesses : List MemoryAccess
  total_execution_time : Int
  start_time : Int
  end_time : Int
deriving DecidableEq, Repr

/-- The data members of `class MemorySimulator`. -/
structure MemorySimulator where
  cache : List String
  page : List String
  disk : List String
  processes : List Process
  current_time : Int
  access_counts : String → Int
  cache_size : Int
  page_size : Int
  disk_size : Int

deriving instance DecidableEq for Except

/-- Range of a 32-bit `int`. -/
def IsInt (x : Int) : Prop := -2147483648 ≤ x ∧ x ≤ 2147483647

instance (x : Int) : Decidable (IsInt x) := by unfold IsInt; infer_instance

/-- An `int` capacity that is at least 1. -/
def PosCap (x : Int) : Prop := 1 ≤ x ∧ x ≤ 2147483647

instance (x : Int) : Decidable (PosCap x) := by unfold PosCap; infer_instance

/-- Result of an `int` operation whose mathematical value is `x`: the 32-bit
two's-complement wrap-around that the compiled program computes (signed overflow is
undefined in the language). -/
def wrap_int (x : Int) : Int := (x + 2147483648) % 4294967296 - 2147483648

/-- Conversion of an `int` to the 64-bit `size_t` it is compared with. -/
def toSizeT (x : Int) : Nat := (x % 2 ^ 64).toNat

/-- Loop of `std::min_element`: `sv` is `*smallest`, `smallest` its position, `i` the
position of the head of the remaining range. -/
def min_element_loop (counts : String → Int) :
    String → Nat → Nat → List String → Nat × String
  | sv, smallest, _, [] => (smallest, sv)
  | sv, smallest, i, x :: xs =>
      if counts x < counts sv then min_element_loop counts x i (i + 1) xs
      else min_element_loop counts sv smallest (i + 1) xs

/-- The call `min_element(v.begin(), v.end(), cmp)` with `cmp(a, b)` the comparison
`access_counts[a] < access_counts[b]`: position and value of the iterator returned, `none`
when it is `v.end()`. -/
def min_element (counts : String → Int) : List String → Option (Nat × String)
  | [] => none
  | x :: xs => some (min_element_loop counts x 0 1 xs)

/-- Method `move_to_cache`. -/
def move_to_cache (s : MemorySimulator) (address : String) : Except Fault MemorySimulator :=
  let s1 := { s with page := s.page.erase address }
  if toSizeT s1.cache_size ≤ s1.cache.length then
    match min_element s1.access_counts s1.cache with
    | none => .error .emptyVictim
    | some (i, v) =>
        .ok { s1 with page := s1.page ++ [v], cache := s1.cache.eraseIdx i ++ [address] }
  else
    .ok { s1 with cache := s1.cache ++ [address] }

/-- Method `move_to_page`. -/
def move_to_page (s : MemorySimulator) (address : String) : Except Fault MemorySimulator :=
  let s1 := { s with disk := s.disk.erase address }
  if toSizeT s1.page_size ≤ s1.page.length then
    match min_element s1.access_counts s1.page with
    | none => .error .emptyVictim
    | some (i, v) =>
        .ok { s1 with disk := s1.disk ++ [v], page := s1.page.eraseIdx i ++ [address] }
  else
    .ok { s1 with page := s1.page ++ [address] }

/-- The statement `access_counts[address]++`. -/
def bump (counts : String → Int) (address : String) : String → Int :=
  fun a => if a = address then wrap_int (counts a + 1) else counts a

/-- The miss path's `if (disk.size() >= disk_size) disk.erase(disk.begin());`. -/
def drop_oldest (s : MemorySimulator) : Except Fault MemorySimulator :=
  if toSizeT s.disk_size ≤ s.disk.length then
    match s.disk with
    | [] => .error .emptyErase
    | _ :: rest => .ok { s with disk := rest }
  else
    .ok s

/-- Method `access_memory`: the label returned and the state left behind. -/
def access_memory (s : MemorySimulator) (address : String) :
    Except Fault (String × MemorySimulator) :=
  let s0 := { s with access_counts := bump s.access_counts address }
  if address ∈ s0.cache then
    .ok ("cache", s0)
  else if address ∈ s0.page then
    (move_to_cache s0 address).bind fun s1 => .ok ("page", s1)
  else if address ∈ s0.disk then
    (move_to_page s0 address).bind fun s1 =>
    (move_to_cache s1 address).bind fun s2 => .ok ("disk", s2)
  else
    (drop_oldest s0).bind fun s1 =>
    (move_to_page { s1 with disk := s1.disk ++ [address] } address).bind fun s2 =>
    (move_to_cache s2 address).bind fun s3 => .ok ("not found", s3)

/-- The constructor's `string address = "A" + to_string(i)`. -/
def address_of (i : Nat) : String := "A" ++ toString i

/-- Body of the constructor's loop for index `i`. -/
def init_step (c_size p_size : Int) (s : MemorySimulator) (i : Nat) :
    Except Fault MemorySimulator :=
  let address := address_of i
  let s1 := { s with disk := s.disk ++ [address] }
  if (i : Int) < p_size then
    (move_to_page s1 address).bind fun s2 =>
    if (i : Int) < c_size then move_to_cache s2 address else .ok s2
  else
    .ok s1

/-- The loop `for (int i = 0; i < disk_size; i++)` run over the indices in `is`. -/
def init_loop (c_size p_size : Int) : MemorySimulator → List Nat → Except Fault MemorySimulator
  | s, [] => .ok s
  | s, i :: is => (init_step c_size p_size s i).bind fun s1 => init_loop c_size p_size s1 is

/-- Constructor `MemorySimulator(c_size, p_size, d_size)`. -/
def MemorySimulator.init (c_size p_size d_size : Int) : Except Fault MemorySimulator :=
  init_loop c_size p_size
    { cache := [], page := [], disk := [], processes := [], current_time := 0,
      access_counts := fun _ => 0,
      cache_size := c_size, page_size := p_size, disk_size := d_size }
    (List.range d_size.toNat)

/-- The three tiers of a state. -/
def tiers (s : MemorySimulator) : List String × List String × List String :=
  (s.cache, s.page, s.disk)

/-- A finite sequence of `access_memory` calls; the labels are discarded. -/
def access_all : MemorySimulator → List String → Except Fault MemorySimulator
  | s, [] => .ok s
  | s, a :: as => (access_memory s a).bind fun r => access_all r.2 as

/-- The expression `(found_in == "cache") ? 1 : (found_in == "page") ? 10 : 100`. -/
def latency (found_in : String) : Int :=
  if found_in = "cache" then 1 else if found_in = "page" then 10 else 100

/-- Inner loop of `run_simulation` over the addresses of the process `p`. -/
def run_addresses : MemorySimulator → Process → List String →
    Except Fault (MemorySimulator × Process)
  | s, p, [] => .ok (s, p)
  | s, p, addr :: rest =>
      (access_memory s addr).bind fun r =>
        let found_in := r.1
        let access_time := latency found_in
        run_addresses { r.2 with current_time := wrap_int (r.2.current_time + access_time) }
          { p with
              memory_accesses := p.memory_accesses ++ [⟨addr, access_time, found_in⟩],
              total_execution_time := wrap_int (p.total_execution_time + access_time) }
          rest

/-- Body of the outer loop of `run_simulation` for one process. -/
def run_process (s : MemorySimulator) (p : Process) : Except Fault (MemorySimulator × Process) :=
  let s1 := if s.current_time < p.arrival_time then { s with current_time := p.arrival_time } else s
  let p1 := { p with start_time := s1.current_time }
  (run_addresses s1 p1 p1.addresses_to_access).bind fun r =>
    .ok (r.1, { r.2 with end_time := r.1.current_time })

/-- Outer loop of `run_simulation` over the (sorted) process vector. -/
def run_processes : MemorySimulator → List Process →
    Except Fault (MemorySimulator × List Process)
  | s, [] => .ok (s, [])
  | s, p :: ps =>
      (run_process s p).bind fun r =>
      (run_processes r.1 ps).bind fun r2 => .ok (r2.1, r.2 :: r2.2)

/-- Method `run_simulation`.  The rearrangement computed by `std::sort` with the comparator
`a.arrival_time < b.arrival_time` is the parameter `sort`. -/
def run_simulation (sort : List Process → List Process) (s : MemorySimulator) :
    Except Fault MemorySimulator :=
  let sorted := sort s.processes
  (run_processes { s with processes := sorted } sorted).bind fun r =>
    .ok { r.1 with processes := r.2 }

/-- Value of a decimal digit character. -/
def digitVal (c : Char) : Nat := c.toNat - 48

/-- Value of a string of decimal digits, most significant first. -/
def decimalVal (l : List Char) : Nat := l.foldl (fun acc c => acc * 10 + digitVal c) 0

/-- Index read back from an address of the form `"A" ++ toString i`. -/
def addrIndex (s : String) : Nat := decimalVal (s.data.drop 1)

/-- Capacity invariant T2 of a state. -/
def WithinCapacity (s : MemorySimulator) : Prop :=
  (s.cache.length : Int) ≤ s.cache_size ∧ (s.page.length : Int) ≤ s.page_size ∧
    (s.disk.length : Int) ≤ s.disk_size

/-- Mutual-exclusion invariant T1 of a state. -/
def Exclusive (s : MemorySimulator) : Prop := (s.cache ++ s.page ++ s.disk).Nodup

/-- All three capacities of a state are `int`s that are at least 1. -/
def PosCaps (s : MemorySimulator) : Prop :=
  PosCap s.cache_size ∧ PosCap s.page_size ∧ PosCap s.disk_size

instance (s : MemorySimulator) : Decidable (WithinCapacity s) := by
  unfold WithinCapacity; infer_instance

instance (s : MemorySimulator) : Decidable (Exclusive s) := by
  unfold Exclusive; infer_instance

instance (s : MemorySimulator) : Decidable (PosCaps s) := by
  unfold PosCaps; infer_instance

/-- The capacities of `s1` are those of `s`. -/
def SameCaps (s s1 : MemorySimulator) : Prop :=
  s1.cache_size = s.cache_size ∧ s1.page_size = s.page_size ∧ s1.disk_size = s.disk_size

/-- The membership query `locate(addr)` of the specification (section 4.1), as the label of
the tier: cache first, then page, then disk, else "not found". -/
def locate (s : MemorySimulator) (a : String) : String :=
  if a ∈ s.cache then "cache" else if a ∈ s.page then "page"
  else if a ∈ s.disk then "disk" else "not found"

/-- The address `a` is in none of the three tiers. -/
def Absent (s : MemorySimulator) (a : String) : Prop := a ∉ s.cache ∧ a ∉ s.page ∧ a ∉ s.disk

instance (s : MemorySimulator) (a : String) : Decidable (Absent s a) := by
  unfold Absent; infer_instance

/-- The disk left by the miss path's capacity check: without its head when it was full. -/
def disk_after_drop (s : MemorySimulator) : List String :=
  if toSizeT s.disk_size ≤ s.disk.length then s.disk.tail else s.disk

/-- Closed form of the state after the first `n` iterations of the constructor's loop:
index `i` ends in cache when `i < p_size` and `i < c_size`, in page when `i < p_size` only,
and stays on disk otherwise. -/
def init_after (c_size p_size d_size : Int) (n : Nat) : MemorySimulator :=
  { cache := ((List.range n).filter
      fun (i : Nat) => decide ((i : Int) < p_size ∧ (i : Int) < c_size)).map address_of,
    page := ((List.range n).filter
      fun (i : Nat) => decide ((i : Int) < p_size ∧ ¬ (i : Int) < c_size)).map address_of,
    disk := ((List.range n).filter
      fun (i : Nat) => decide (¬ (i : Int) < p_size)).map address_of,
    processes := [], current_time := 0, access_counts := fun _ => 0,
    cache_size := c_size, page_size := p_size, disk_size := d_size }

/-- Construction followed by a finite sequence of `access_memory` calls. -/
def boot_and_access (c_size p_size d_size : Int) (addrs : List String) :
    Except Fault MemorySimulator :=
  (MemorySimulator.init c_size p_size d_size).bind fun s => access_all s addrs

/-- The latency table of the specification for one recorded access. -/
def LatencyTable (m : MemoryAccess) : Prop :=
  (m.found_in = "cache" ∧ m.access_time = 1) ∨ (m.found_in = "page" ∧ m.access_time = 10) ∨
    (m.found_in = "disk" ∧ m.access_time = 100) ∨
    (m.found_in = "not found" ∧ m.access_time = 100)

/-- What `run_simulation` adds to a process `p` to give `p1`: one record per address of the
process, in order, each obeying the latency table, after the records `p` already had. -/
def RecordsAdded (p p1 : Process) : Prop :=
  ∃ recs : List MemoryAccess, p1.memory_accesses = p.memory_accesses ++ recs ∧
    recs.map (fun m => m.address) = p.addresses_to_access ∧ ∀ m ∈ recs, LatencyTable m

/-- A state with capacities (1, 2, 3) as built by the constructor, with one registered
process that has not run yet. -/
def sample_simulator : MemorySimulator :=
  { init_after 1 2 3 3 with
    processes := [{ id := 1, arrival_time := 5, addresses_to_access := ["A0", "A2", "X", "A0"],
                    memory_accesses := [], total_execution_time := 0,
                    start_time := 0, end_time := 0 }] }

/-- The state reached with capacities (1, 1, 1) after construction and the two misses
"X" and "Y": every tier is full. -/
def full_simulator : MemorySimulator :=
  { cache := ["Y"], page := ["X"], disk := ["A0"], processes := [], current_time := 0,
    access_counts := bump (bump (fun _ => 0) "X") "Y",
    cache_size := 1, page_size := 1, disk_size := 1 }

/-- A state with a full cache and a full page whose entries have different counters:
"b" and "c" have the smallest counter in cache, "q" has the smallest counter in page. -/
def ranked_simulator : MemorySimulator :=
  { cache := ["a", "b", "c"], page := ["p", "q"], disk := ["d"], processes := [],
    current_time := 0,
    access_counts := fun x => if x = "a" then 2 else if x = "p" then 3 else 1,
    cache_size := 3, page_size := 2, disk_size := 4 }

/-- A state with a cache hit available: "b" is in cache, its counter is 5. -/
def counted_simulator : MemorySimulator :=
  { cache := ["a", "b"], page := ["p"], disk := ["d"], processes := [], current_time := 7,
    access_counts := fun x => if x = "b" then 5 else 0,
    cache_size := 2, page_size := 2, disk_size := 2 }

/-- Method `add_process`.  The method leaves `start_time` and `end_time` of the new process
uninitialised; `start0` and `end0` stand for their indeterminate contents. -/
def add_process (s : MemorySimulator) (arrival_time : Int) (addresses : List String)
    (start0 end0 : Int) : MemorySimulator :=
  { s with
    processes := s.processes ++
      [{ id := (s.processes.length : Int) + 1, arrival_time := arrival_time,
         addresses_to_access := addresses, memory_accesses := [],
         total_execution_time := 0, start_time := start0, end_time := end0 }] }

/-- Contract of `std::sort` with the comparator `a.arrival_time < b.arrival_time`: the
result is a rearrangement of the input in which no element is followed by one with a
smaller arrival time.  Nothing is promised about elements with equal arrival times. -/
def IsStdSort (sort : List Process → List Process) : Prop :=
  ∀ l, (sort l).Perm l ∧ (sort l).Pairwise fun a b => a.arrival_time ≤ b.arrival_time

/-- A process as `add_process` leaves it: no recorded access, execution time 0. -/
def Registered (p : Process) : Prop := p.memory_accesses = [] ∧ p.total_execution_time = 0

/-- Sum of the latencies of the recorded accesses of a process. -/
def sum_latencies (p : Process) : Int := (p.memory_accesses.map fun m => m.access_time).sum

/-- The clock discipline of `run_simulation` along the processes in run order, `e` being
the end time of the previous process (0 before the first). -/
def ClockChain : Int → List Process → Prop
  | _, [] => True
  | e, p :: ps =>
      p.start_time = max p.arrival_time e ∧ p.total_execution_time = sum_latencies p ∧
        p.end_time = p.start_time + p.total_execution_time ∧ ClockChain p.end_time ps

/-- End time of the last process of the list, `e` when the list is empty. -/
def final_end : Int → List Process → Int
  | e, [] => e
  | _, p :: ps => final_end p.end_time ps

/-- The fields of a process that `run_simulation` does not change. -/
def SameProcess (p p1 : Process) : Prop :=
  p1.id = p.id ∧ p1.arrival_time = p.arrival_time ∧
    p1.addresses_to_access = p.addresses_to_access

/-- The FCFS scenario: capacities (1, 2, 3), P1 registered first with arrival 5 and the
address "X" (in no tier), P2 registered second with arrival 1 and the address "A0". -/
def fcfs_scenario : MemorySimulator :=
  add_process (add_process (init_after 1 2 3 3) 5 ["X"] 0 0) 1 ["A0"] 0 0

/-- Insertion sort by arrival time that keeps registration order among equal arrival
times: the stable sort of the specification. -/
def stable_sort (l : List Process) : List Process :=
  l.insertionSort fun a b => a.arrival_time ≤ b.arrival_time

instance (p : Process) : Decidable (Registered p) := by unfold Registered; infer_instance

/-- What the FCFS scenario reports: the final clock and, in run order, the id, start time
and end time of each process. -/
def clock_report (s : MemorySimulator) : Int × List (Int × Int × Int) :=
  (s.current_time, s.processes.map fun p => (p.id, p.start_time, p.end_time))

/-- The operands of the division `(float)total_time / p.memory_accesses.size()` that
`print_stats` evaluates for each process, in order: `total_time` is the `accumulate` of the
recorded access times starting from 0, the divisor is the number of recorded accesses. -/
def average_operands (s : MemorySimulator) : List (Int × Nat) :=
  s.processes.map fun p =>
    (p.memory_accesses.foldl (fun sum access => wrap_int (sum + access.access_time)) 0,
      p.memory_accesses.length)

/-- Position of the last access to `a` in an access sequence, `none` when `a` is never
accessed. -/
def last_access (addrs : List String) (a : String) : Option Nat :=
  ((List.range addrs.length).filter fun i => decide (addrs[i]? = some a)).getLast?

/-- The address `x` is resident: it is in cache, in page or on disk. -/
def Resident (s : MemorySimulator) (x : String) : Prop := x ∈ s.cache ∨ x ∈ s.page ∨ x ∈ s.disk

instance (s : MemorySimulator) (x : String) : Decidable (Resident s x) := by
  unfold Resident; infer_instance

/-- A state in which the counter of the cache entry "b" has reached `INT_MAX`. -/
def saturated_simulator : MemorySimulator :=
  { cache := ["a", "b"], page := ["p"], disk := ["d"], processes := [], current_time := 0,
    access_counts := fun x => if x = "b" then 2147483647 else 0,
    cache_size := 2, page_size := 2, disk_size := 2 }

/-- Number of addresses that the processes of a list access altogether. -/
def total_addresses (ps : List Process) : Int :=
  (ps.map fun p => (p.addresses_to_access.length : Int)).sum

/-- A bound that keeps the clock of a run within `int`: no arrival time exceeds `A ≥ 0`,
and `A` plus 100 (the largest latency) per address to access is at most `INT_MAX`. -/
def ClockInRange (A : Int) (ps : List Process) : Prop :=
  (∀ p ∈ ps, p.arrival_time ≤ A) ∧ 0 ≤ A ∧ A + 100 * total_addresses ps ≤ 2147483647

instance (A : Int) (ps : List Process) : Decidable (ClockInRange A ps) := by
  unfold ClockInRange; infer_instance

/-- The comparator of `run_simulation`, `a.arrival_time < b.arrival_time`, applied to the
elements at positions `i` and `j` of a vector; `false` when a position is outside it. -/
def comp_at (l : List Process) (i j : Nat) : Bool :=
  match l[i]?, l[j]? with
  | some a, some b => decide (a.arrival_time < b.arrival_time)
  | _, _ => false

/-- Library call `std::iter_swap(first + i, first + j)`. -/
def iter_swap (l : List Process) (i j : Nat) : List Process :=
  match l[i]?, l[j]? with
  | some a, some b => (l.set i b).set j a
  | _, _ => l

/-- Function `std::__move_median_to_first(result, a, b, c, comp)` of libstdc++. -/
def move_median_to_first (l : List Process) (result a b c : Nat) : List Process :=
  if comp_at l a b then
    if comp_at l b c then iter_swap l result b
    else if comp_at l a c then iter_swap l result c
    else iter_swap l result a
  else if comp_at l a c then iter_swap l result a
  else if comp_at l b c then iter_swap l result c
  else iter_swap l result b

/-- The scan `while (comp(first, pivot)) ++first;` of `std::__unguarded_partition`; the
first argument bounds the number of steps (the scan stops at the end of the vector at the
latest, where `comp_at` is false). -/
def scan_up (l : List Process) (pivot : Nat) : Nat → Nat → Nat
  | 0, first => first
  | fuel + 1, first =>
      if comp_at l first pivot then scan_up l pivot fuel (first + 1) else first

/-- The scan `while (comp(pivot, last)) --last;` of `std::__unguarded_partition`. -/
def scan_down (l : List Process) (pivot : Nat) : Nat → Nat
  | 0 => 0
  | last + 1 => if comp_at l pivot (last + 1) then scan_down l pivot last else last + 1

/-- Function `std::__unguarded_partition(first, last, pivot, comp)` of libstdc++: the
rearranged vector and the cut position returned.  The first argument bounds the number of
iterations of `while (true)`. -/
def unguarded_partition : Nat → List Process → Nat → Nat → Nat → List Process × Nat
  | 0, l, first, _, _ => (l, first)
  | fuel + 1, l, first, last, pivot =>
      let first1 := scan_up l pivot l.length first
      let last1 := scan_down l pivot (last - 1)
      if first1 < last1 then
        unguarded_partition fuel (iter_swap l first1 last1) (first1 + 1) last1 pivot
      else (l, first1)

/-- Function `std::__unguarded_partition_pivot(first, last, comp)` of libstdc++ on the
range `l`: median of the second, middle and last element moved to the front, then the
partition of the rest around it. -/
def unguarded_partition_pivot (l : List Process) : List Process × Nat :=
  let mid := l.length / 2
  let l1 := move_median_to_first l 0 1 mid (l.length - 1)
  unguarded_partition l.length l1 1 l.length 0

/-- Function `std::__introsort_loop(first, last, depth_limit, comp)` of libstdc++ on the
range `l`, with the threshold 16.  The heapsort `std::__partial_sort(first, last, last)`
taken at depth limit 0 is the parameter `heap_sort`. -/
def introsort_loop (heap_sort : List Process → List Process) :
    Nat → List Process → List Process
  | 0, l => if 16 < l.length then heap_sort l else l
  | depth + 1, l =>
      if 16 < l.length then
        let r := unguarded_partition_pivot l
        introsort_loop heap_sort depth (r.1.take r.2) ++
          introsort_loop heap_sort depth (r.1.drop r.2)
      else l

/-- Function `std::__unguarded_linear_insert` of libstdc++: `val` moves towards the front
past every element it compares less than.  The argument is the part of the vector before
the position of `val`, last element first, and so is the result.  The source loop has no
test for the start of the range (its callers place an element not greater than `val` before
it); on a range without such an element the embedding stops at the start. -/
def unguarded_linear_insert (val : Process) : List Process → List Process
  | [] => [val]
  | y :: ys =>
      if val.arrival_time < y.arrival_time then y :: unguarded_linear_insert val ys
      else val :: y :: ys

/-- One iteration of `std::__unguarded_insertion_sort`: the sorted part `pre` with the next
element `val` inserted. -/
def unguarded_step (pre : List Process) (val : Process) : List Process :=
  (unguarded_linear_insert val pre.reverse).reverse

/-- One iteration of `std::__insertion_sort` of libstdc++: an element smaller than the first
is moved to the front, any other is inserted by `__unguarded_linear_insert`. -/
def insertion_step (pre : List Process) (val : Process) : List Process :=
  match pre with
  | [] => [val]
  | first :: _ =>
      if val.arrival_time < first.arrival_time then val :: pre else unguarded_step pre val

/-- Function `std::__insertion_sort` of libstdc++. -/
def insertion_sort (l : List Process) : List Process := l.foldl insertion_step []

/-- Function `std::__final_insertion_sort` of libstdc++, threshold 16. -/
def final_insertion_sort (l : List Process) : List Process :=
  if 16 < l.length then (l.drop 16).foldl unguarded_step (insertion_sort (l.take 16))
  else insertion_sort l

/-- Function `std::__lg`: the floor of the binary logarithm. -/
def lg_fuel : Nat → Nat → Nat
  | 0, _ => 0
  | fuel + 1, n => if 2 ≤ n then lg_fuel fuel (n / 2) + 1 else 0

/-- The call `std::sort(processes.begin(), processes.end(), comp)` of `run_simulation` as
libstdc++ implements it (`std::__sort` in bits/stl_algo.h): introsort loop with depth limit
`2 * __lg(n)`, then the final insertion sort. -/
def std_sort (heap_sort : List Process → List Process) (l : List Process) : List Process :=
  if l.length = 0 then l
  else final_insertion_sort (introsort_loop heap_sort (2 * lg_fuel l.length l.length) l)

/-- Seventeen processes registered with the same arrival time 0 on the constructed state
with capacities (1, 2, 3). -/
def ties17 : MemorySimulator :=
  (List.range 17).foldl (fun s _ => add_process s 0 ["A0"] 0 0) (init_after 1 2 3 3)

theorem digitVal_digitChar (k : Nat) (hk : k < 10) : digitVal (Nat.digitChar k) = k := by
  interval_cases k <;> rfl

theorem toDigitsCore_append (fuel : Nat) : ∀ (n : Nat) (ds : List Char),
    Nat.toDigitsCore 10 fuel n ds = Nat.toDigitsCore 10 fuel n [] ++ ds := by
  induction fuel with
  | zero => intro n ds; simp [Nat.toDigitsCore]
  | succ f ih =>
    intro n ds
    simp only [Nat.toDigitsCore]
    split
    · simp
    · rw [ih (n / 10) (Nat.digitChar (n % 10) :: ds), ih (n / 10) [Nat.digitChar (n % 10)]]
      simp

theorem decimalVal_append_singleton (l : List Char) (c : Char) :
    decimalVal (l ++ [c]) = decimalVal l * 10 + digitVal c := by
  simp [decimalVal, List.foldl_append]

theorem decimalVal_toDigitsCore (fuel : Nat) : ∀ n : Nat, n < fuel →
    decimalVal (Nat.toDigitsCore 10 fuel n []) = n := by
  induction fuel with
  | zero => intro n h; omega
  | succ f ih =>
    intro n hn
    simp only [Nat.toDigitsCore]
    split
    · rename_i h0
      have h10 : n < 10 := by omega
      have hm : n % 10 = n := Nat.mod_eq_of_lt h10
      simp [decimalVal, hm, digitVal_digitChar n h10]
    · rename_i h0
      rw [toDigitsCore_append, decimalVal_append_singleton, ih (n / 10) (by omega),
        digitVal_digitChar (n % 10) (Nat.mod_lt _ (by decide))]
      omega

theorem addrIndex_name (i : Nat) : addrIndex ("A" ++ toString i) = i := by
  have h : ("A" ++ toString i).data = 'A' :: Nat.toDigits 10 i := by
    simp [String.data_append, toString, Nat.repr, List.asString]
  simp [addrIndex, h, Nat.toDigits, decimalVal_toDigitsCore]

theorem name_injective {i j : Nat} (h : "A" ++ toString i = "A" ++ toString j) : i = j := by
  have := congrArg addrIndex h
  simpa [addrIndex_name] using this

/-! ## Victim selection -/

theorem toSizeT_of_nonneg {x : Int} (h0 : 0 ≤ x) (h1 : x ≤ 2147483647) :
    (toSizeT x : Int) = x := by
  unfold toSizeT
  rw [Int.emod_eq_of_lt h0 (by omega)]
  exact Int.toNat_of_nonneg h0

theorem min_element_loop_spec (counts : String → Int) (xs : List String) :
    ∀ (pre : List String) (sv : String) (si : Nat),
      pre[si]? = some sv →
      (∀ (j : Nat) (w : String), pre[j]? = some w → counts sv ≤ counts w) →
      (∀ (j : Nat) (w : String), j < si → pre[j]? = some w → counts sv < counts w) →
      (pre ++ xs)[(min_element_loop counts sv si pre.length xs).1]? =
          some (min_element_loop counts sv si pre.length xs).2 ∧
        (∀ (j : Nat) (w : String), (pre ++ xs)[j]? = some w →
          counts (min_element_loop counts sv si pre.length xs).2 ≤ counts w) ∧
        (∀ (j : Nat) (w : String), j < (min_element_loop counts sv si pre.length xs).1 →
          (pre ++ xs)[j]? = some w →
          counts (min_element_loop counts sv si pre.length xs).2 < counts w) := by
  induction xs with
  | nil =>
    intro pre sv si h1 h2 h3
    simpa [min_element_loop] using ⟨h1, h2, h3⟩
  | cons x xs ih =>
    intro pre sv si h1 h2 h3
    have hlen : (pre ++ [x]).length = pre.length + 1 := by simp
    have hsi : si < pre.length := by
      by_contra hc
      rw [List.getElem?_eq_none (by omega)] at h1
      exact absurd h1 (by simp)
    have happ : pre ++ x :: xs = (pre ++ [x]) ++ xs := by simp
    have hget : ∀ (j : Nat) (w : String), (pre ++ [x])[j]? = some w → pre[j]? = some w ∨ (j = pre.length ∧ w = x) := by
      intro j w hj
      rcases Nat.lt_or_ge j pre.length with hlt | hge
      · left; rwa [List.getElem?_append_left hlt] at hj
      · right
        rw [List.getElem?_append_right hge] at hj
        rcases Nat.eq_or_lt_of_le hge with he | hgt
        · subst he; simp at hj; exact ⟨rfl, hj.symm⟩
        · rw [List.getElem?_eq_none (by simp; omega)] at hj
          exact absurd hj (by simp)
    simp only [min_element_loop]
    split
    · rename_i hlt
      rw [happ, ← hlen]
      apply ih (pre ++ [x]) x pre.length
      · simp
      · intro j w hj
        rcases hget j w hj with h | ⟨_, rfl⟩
        · exact le_of_lt (lt_of_lt_of_le hlt (h2 j w h))
        · exact le_refl _
      · intro j w hjl hj
        rcases hget j w hj with h | ⟨he, _⟩
        · exact lt_of_lt_of_le hlt (h2 j w h)
        · omega
    · rename_i hnlt
      rw [happ, ← hlen]
      apply ih (pre ++ [x]) sv si
      · rw [List.getElem?_append_left hsi]; exact h1
      · intro j w hj
        rcases hget j w hj with h | ⟨_, rfl⟩
        · exact h2 j w h
        · exact not_lt.mp hnlt
      · intro j w hjl hj
        rcases hget j w hj with h | ⟨he, _⟩
        · exact h3 j w hjl h
        · omega

theorem min_element_spec (counts : String → Int) (l : List String) (i : Nat) (v : String)
    (h : min_element counts l = some (i, v)) :
    l[i]? = some v ∧ (∀ (j : Nat) (w : String), l[j]? = some w → counts v ≤ counts w) ∧
      (∀ (j : Nat) (w : String), j < i → l[j]? = some w → counts v < counts w) := by
  cases l with
  | nil => simp [min_element] at h
  | cons x xs =>
    simp only [min_element, Option.some.injEq] at h
    have hone : ∀ (j : Nat) (w : String), [x][j]? = some w → w = x := by
      intro j w hj
      cases j with
      | zero => simpa using hj.symm
      | succ k => simp at hj
    have key := min_element_loop_spec counts xs [x] x 0 (by simp)
      (by intro j w hj; rw [hone j w hj]) (by intro j w hj; omega)
    simp only [List.length_singleton, List.singleton_append, Nat.zero_add, h] at key
    exact key

theorem min_element_of_ne_nil (counts : String → Int) (l : List String) (h : l ≠ []) :
    ∃ i v, min_element counts l = some (i, v) := by
  cases l with
  | nil => exact absurd rfl h
  | cons x xs => exact ⟨_, _, rfl⟩

theorem perm_eraseIdx {α : Type} (l : List α) : ∀ (i : Nat) (v : α), l[i]? = some v →
    l.Perm (v :: l.eraseIdx i) := by
  induction l with
  | nil => intro i v h; simp at h
  | cons x xs ih =>
    intro i v h
    cases i with
    | zero =>
      simp at h
      subst h
      simp
    | succ k =>
      simp at h
      simp only [List.eraseIdx_cons_succ]
      exact ((ih k v h).cons x).trans (List.Perm.swap v x _)

theorem count_eraseIdx (l : List String) (i : Nat) (v x : String) (h : l[i]? = some v) :
    List.count x l = List.count x (l.eraseIdx i) + (if x = v then 1 else 0) := by
  rw [(perm_eraseIdx l i v h).count_eq x, List.count_cons]
  by_cases hx : x = v
  · subst hx; simp
  · have : (v == x) = false := by simpa using fun h => hx h.symm
    simp [hx, this]

theorem length_eraseIdx_add_one {α : Type} (l : List α) (i : Nat) (v : α) (h : l[i]? = some v) :
    (l.eraseIdx i).length + 1 = l.length := by
  simpa using (perm_eraseIdx l i v h).length_eq.symm

theorem count_erase_eq (l : List String) (a x : String) :
    List.count x (l.erase a) = List.count x l - (if x = a ∧ a ∈ l then 1 else 0) := by
  by_cases ha : a ∈ l
  · rw [List.count_erase]
    by_cases hx : x = a
    · subst hx; simp [ha]
    · have : (a == x) = false := by simpa using fun h => hx h.symm
      simp [hx, this]
  · rw [List.erase_of_not_mem ha]; simp [ha]

/-! ## The relocation operations -/

theorem move_to_cache_room (s : MemorySimulator) (a : String)
    (h : s.cache.length < toSizeT s.cache_size) :
    move_to_cache s a = .ok { s with page := s.page.erase a, cache := s.cache ++ [a] } := by
  simp [move_to_cache, Nat.not_le.mpr h]

theorem move_to_cache_evict (s : MemorySimulator) (a : String) (i : Nat) (v : String)
    (h : toSizeT s.cache_size ≤ s.cache.length)
    (hv : min_element s.access_counts s.cache = some (i, v)) :
    move_to_cache s a =
      .ok { s with page := s.page.erase a ++ [v], cache := s.cache.eraseIdx i ++ [a] } := by
  simp [move_to_cache, h, hv]

theorem move_to_page_room (s : MemorySimulator) (a : String)
    (h : s.page.length < toSizeT s.page_size) :
    move_to_page s a = .ok { s with disk := s.disk.erase a, page := s.page ++ [a] } := by
  simp [move_to_page, Nat.not_le.mpr h]

theorem move_to_page_evict (s : MemorySimulator) (a : String) (i : Nat) (v : String)
    (h : toSizeT s.page_size ≤ s.page.length)
    (hv : min_element s.access_counts s.page = some (i, v)) :
    move_to_page s a =
      .ok { s with disk := s.disk.erase a ++ [v], page := s.page.eraseIdx i ++ [a] } := by
  simp [move_to_page, h, hv]

theorem ne_nil_of_full {cap : Int} (hcap : PosCap cap) (l : List String)
    (h : toSizeT cap ≤ l.length) : l ≠ [] := by
  have h1 := toSizeT_of_nonneg (le_trans (by decide) hcap.1) hcap.2
  have h2 := hcap.1
  intro hl
  subst hl
  simp at h
  omega

/-- What `move_to_cache` does when the cache capacity is at least 1. -/
theorem move_to_cache_sound (s : MemorySimulator) (a : String) (hc : PosCap s.cache_size) :
    ∃ s1, move_to_cache s a = .ok s1 ∧ s1.disk = s.disk ∧
      s1.cache_size = s.cache_size ∧ s1.page_size = s.page_size ∧
      s1.disk_size = s.disk_size ∧ s1.access_counts = s.access_counts ∧
      s1.processes = s.processes ∧ s1.current_time = s.current_time ∧
      a ∈ s1.cache ∧
      (∀ x, List.count x s1.cache + List.count x s1.page =
        List.count x s.cache + List.count x (s.page.erase a) + (if x = a then 1 else 0)) ∧
      ((s.cache.length : Int) ≤ s.cache_size → (s1.cache.length : Int) ≤ s.cache_size) ∧
      s1.page.length ≤ (s.page.erase a).length + 1 := by
  have hsz := toSizeT_of_nonneg (le_trans (by decide) hc.1) hc.2
  rcases Nat.lt_or_ge s.cache.length (toSizeT s.cache_size) with hroom | hfull
  · refine ⟨_, move_to_cache_room s a hroom, rfl, rfl, rfl, rfl, rfl, rfl, rfl, ?_, ?_, ?_, ?_⟩
    · simp
    · intro x
      simp only [List.count_append, List.count_cons, List.count_nil]
      by_cases hx : x = a
      · subst hx; simp; omega
      · have : (a == x) = false := by simpa using fun h => hx h.symm
        simp [hx, this]
    · intro _; simp; omega
    · simp
  · obtain ⟨i, v, hv⟩ := min_element_of_ne_nil s.access_counts s.cache
      (ne_nil_of_full hc s.cache hfull)
    have hget := (min_element_spec _ _ _ _ hv).1
    refine ⟨_, move_to_cache_evict s a i v hfull hv, rfl, rfl, rfl, rfl, rfl, rfl, rfl,
      ?_, ?_, ?_, ?_⟩
    · simp
    · intro x
      have h1 := count_eraseIdx s.cache i v x hget
      simp only [List.count_append, List.count_cons, List.count_nil]
      have e1 : (if (a == x) = true then 1 else 0) = (if x = a then 1 else 0) := by
        by_cases hx : x = a
        · subst hx; simp
        · have : (a == x) = false := by simpa using fun h => hx h.symm
          simp [hx, this]
      have e2 : (if (v == x) = true then 1 else 0) = (if x = v then 1 else 0) := by
        by_cases hx : x = v
        · subst hx; simp
        · have : (v == x) = false := by simpa using fun h => hx h.symm
          simp [hx, this]
      rw [e1, e2]
      omega
    · intro h
      have := length_eraseIdx_add_one s.cache i v hget
      simp
      omega
    · simp

/-- What `move_to_page` does when the page capacity is at least 1. -/
theorem move_to_page_sound (s : MemorySimulator) (a : String) (hc : PosCap s.page_size) :
    ∃ s1, move_to_page s a = .ok s1 ∧ s1.cache = s.cache ∧
      s1.cache_size = s.cache_size ∧ s1.page_size = s.page_size ∧
      s1.disk_size = s.disk_size ∧ s1.access_counts = s.access_counts ∧
      s1.processes = s.processes ∧ s1.current_time = s.current_time ∧
      a ∈ s1.page ∧
      (∀ x, List.count x s1.page + List.count x s1.disk =
        List.count x s.page + List.count x (s.disk.erase a) + (if x = a then 1 else 0)) ∧
      ((s.page.length : Int) ≤ s.page_size → (s1.page.length : Int) ≤ s.page_size) ∧
      s1.disk.length ≤ (s.disk.erase a).length + 1 := by
  have hsz := toSizeT_of_nonneg (le_trans (by decide) hc.1) hc.2
  have e1 : ∀ b x : String, (if (b == x) = true then 1 else 0) = (if x = b then 1 else 0) := by
    intro b x
    by_cases hx : x = b
    · subst hx; simp
    · have : (b == x) = false := by simpa using fun h => hx h.symm
      simp [hx, this]
  rcases Nat.lt_or_ge s.page.length (toSizeT s.page_size) with hroom | hfull
  · refine ⟨_, move_to_page_room s a hroom, rfl, rfl, rfl, rfl, rfl, rfl, rfl, ?_, ?_, ?_, ?_⟩
    · simp
    · intro x
      simp only [List.count_append, List.count_cons, List.count_nil, e1]
      omega
    · intro _; simp; omega
    · simp
  · obtain ⟨i, v, hv⟩ := min_element_of_ne_nil s.access_counts s.page
      (ne_nil_of_full hc s.page hfull)
    have hget := (min_element_spec _ _ _ _ hv).1
    refine ⟨_, move_to_page_evict s a i v hfull hv, rfl, rfl, rfl, rfl, rfl, rfl, rfl,
      ?_, ?_, ?_, ?_⟩
    · simp
    · intro x
      have h1 := count_eraseIdx s.page i v x hget
      simp only [List.count_append, List.count_cons, List.count_nil, e1]
      omega
    · intro h
      have := length_eraseIdx_add_one s.page i v hget
      simp
      omega
    · simp

/-! ## One access -/

theorem access_memory_cache (s : MemorySimulator) (a : String) (h : a ∈ s.cache) :
    access_memory s a = .ok ("cache", { s with access_counts := bump s.access_counts a }) := by
  simp [access_memory, h]

theorem access_memory_page (s : MemorySimulator) (a : String) (h1 : a ∉ s.cache)
    (h2 : a ∈ s.page) :
    access_memory s a =
      (move_to_cache { s with access_counts := bump s.access_counts a } a).bind
        fun s1 => .ok ("page", s1) := by
  simp [access_memory, h1, h2]

theorem access_memory_disk (s : MemorySimulator) (a : String) (h1 : a ∉ s.cache)
    (h2 : a ∉ s.page) (h3 : a ∈ s.disk) :
    access_memory s a =
      (move_to_page { s with access_counts := bump s.access_counts a } a).bind fun s1 =>
      (move_to_cache s1 a).bind fun s2 => .ok ("disk", s2) := by
  simp [access_memory, h1, h2, h3]

theorem access_memory_miss (s : MemorySimulator) (a : String) (h : Absent s a) :
    access_memory s a =
      (drop_oldest { s with access_counts := bump s.access_counts a }).bind fun s1 =>
      (move_to_page { s1 with disk := s1.disk ++ [a] } a).bind fun s2 =>
      (move_to_cache s2 a).bind fun s3 => .ok ("not found", s3) := by
  simp [access_memory, h.1, h.2.1, h.2.2]

theorem drop_oldest_sound (s : MemorySimulator) (hd : PosCap s.disk_size) :
    drop_oldest s = .ok { s with disk := disk_after_drop s } := by
  unfold drop_oldest disk_after_drop
  by_cases hfull : toSizeT s.disk_size ≤ s.disk.length
  · have hne := ne_nil_of_full hd s.disk hfull
    rw [if_pos hfull, if_pos hfull]
    cases hdisk : s.disk with
    | nil => exact absurd hdisk hne
    | cons x xs => simp
  · rw [if_neg hfull, if_neg hfull]

theorem length_disk_after_drop (s : MemorySimulator) (hd : PosCap s.disk_size)
    (h : (s.disk.length : Int) ≤ s.disk_size) :
    ((disk_after_drop s).length : Int) + 1 ≤ s.disk_size := by
  have hsz := toSizeT_of_nonneg (le_trans (by decide) hd.1) hd.2
  have h1 := hd.1
  unfold disk_after_drop
  split
  · simp; omega
  · omega

theorem not_mem_disk_after_drop (s : MemorySimulator) (a : String) (h : a ∉ s.disk) :
    a ∉ disk_after_drop s := by
  unfold disk_after_drop
  split
  · exact fun hm => h (List.mem_of_mem_tail hm)
  · exact h

theorem length_erase_add_one (l : List String) (a : String) (h : a ∈ l) :
    (l.erase a).length + 1 = l.length := by
  have := List.length_pos_of_mem h
  rw [List.length_erase_of_mem h]
  omega

theorem count_pos_of_mem (l : List String) (a : String) (h : a ∈ l) : 1 ≤ List.count a l :=
  List.count_pos_iff.mpr h

theorem count_zero_of_not_mem (l : List String) (a : String) (h : a ∉ l) : List.count a l = 0 :=
  List.count_eq_zero_of_not_mem h

/-- A page hit: the label, the frame and the effect on the tiers. -/
theorem access_memory_page_sound (s : MemorySimulator) (a : String) (hp : PosCaps s)
    (h1 : a ∉ s.cache) (h2 : a ∈ s.page) :
    ∃ s1, access_memory s a = .ok ("page", s1) ∧ SameCaps s s1 ∧ a ∈ s1.cache ∧
      s1.access_counts = bump s.access_counts a ∧ s1.processes = s.processes ∧
      s1.current_time = s.current_time ∧
      (∀ x, List.count x s1.cache + List.count x s1.page + List.count x s1.disk =
        List.count x s.cache + List.count x s.page + List.count x s.disk) ∧
      (WithinCapacity s → WithinCapacity s1) := by
  obtain ⟨s1, hok, hdisk, hcs, hps, hds, hcnt, hproc, htime, hmem, hcount, hlen, hplen⟩ :=
    move_to_cache_sound { s with access_counts := bump s.access_counts a } a hp.1
  dsimp only at hdisk hcs hps hds hcnt hproc htime hcount hlen hplen
  refine ⟨s1, ?_, ⟨hcs, hps, hds⟩, hmem, hcnt, hproc, htime, ?_, ?_⟩
  · rw [access_memory_page s a h1 h2, hok]; rfl
  · intro x
    have hc := hcount x
    have he := count_erase_eq s.page a x
    have hpos := count_pos_of_mem s.page a h2
    rw [hdisk]
    by_cases hx : x = a
    · subst hx
      simp only [h2, and_self, if_true] at hc he
      omega
    · simp only [hx, false_and, if_false] at hc he
      omega
  · intro hw
    have hl := length_erase_add_one s.page a h2
    refine ⟨?_, ?_, ?_⟩
    · rw [hcs]; exact hlen hw.1
    · rw [hps]; have := hw.2.1; omega
    · rw [hds, hdisk]; exact hw.2.2

/-- Promotion of an address that is on disk: `move_to_page` followed by `move_to_cache`. -/
theorem promote_sound (s : MemorySimulator) (a lab : String) (hp : PosCaps s)
    (h3 : a ∈ s.disk) :
    ∃ s2, ((move_to_page s a).bind fun s1 =>
        (move_to_cache s1 a).bind fun s2 => Except.ok (lab, s2)) = .ok (lab, s2) ∧
      SameCaps s s2 ∧ a ∈ s2.cache ∧
      s2.access_counts = s.access_counts ∧ s2.processes = s.processes ∧
      s2.current_time = s.current_time ∧
      (∀ x, List.count x s2.cache + List.count x s2.page + List.count x s2.disk =
        List.count x s.cache + List.count x s.page + List.count x s.disk) ∧
      (WithinCapacity s → WithinCapacity s2) := by
  obtain ⟨s1, hok1, hcache1, hcs1, hps1, hds1, hcnt1, hproc1, htime1, hmem1, hcount1, hlen1,
    hdlen1⟩ := move_to_page_sound s a hp.2.1
  have hc1 : PosCap s1.cache_size := by rw [hcs1]; exact hp.1
  obtain ⟨s2, hok2, hdisk2, hcs2, hps2, hds2, hcnt2, hproc2, htime2, hmem2, hcount2, hlen2,
    hplen2⟩ := move_to_cache_sound s1 a hc1
  refine ⟨s2, ?_, ⟨hcs2.trans hcs1, hps2.trans hps1, hds2.trans hds1⟩, hmem2,
    hcnt2.trans hcnt1, hproc2.trans hproc1, htime2.trans htime1, ?_, ?_⟩
  · rw [hok1]
    show ((move_to_cache s1 a).bind fun s2 => Except.ok (lab, s2)) = _
    rw [hok2]; rfl
  · intro x
    have ha := hcount1 x
    have hb := hcount2 x
    have he1 := count_erase_eq s.disk a x
    have he2 := count_erase_eq s1.page a x
    have hpos1 := count_pos_of_mem s.disk a h3
    have hpos2 := count_pos_of_mem s1.page a hmem1
    rw [hdisk2]
    rw [hcache1] at hb
    by_cases hx : x = a
    · subst hx
      simp only [h3, hmem1, and_self, if_true] at ha hb he1 he2
      omega
    · simp only [hx, false_and, if_false] at ha hb he1 he2
      omega
  · intro hw
    have hl1 := length_erase_add_one s.disk a h3
    have hl2 := length_erase_add_one s1.page a hmem1
    have hpl := hlen1 hw.2.1
    have hcl := hlen2 (by rw [hcache1, hcs1]; exact hw.1)
    have hdl := hw.2.2
    refine ⟨?_, ?_, ?_⟩
    · rw [hcs2]; exact hcl
    · rw [hps2, hps1]; omega
    · rw [hds2, hds1, hdisk2]; omega

/-- One `access_memory` call with capacities at least 1: it returns, the label is the tier
that held the address before the call, the address is in cache afterwards, only the counter
of the address changes, and the tiers are rearranged as described by the multiplicities. -/
theorem access_memory_sound (s : MemorySimulator) (a : String) (hp : PosCaps s) :
    ∃ s1, access_memory s a = .ok (locate s a, s1) ∧ SameCaps s s1 ∧ a ∈ s1.cache ∧
      s1.access_counts = bump s.access_counts a ∧ s1.processes = s.processes ∧
      s1.current_time = s.current_time ∧
      (∀ x, List.count x s1.cache + List.count x s1.page + List.count x s1.disk =
        if Absent s a then
          List.count x s.cache + List.count x s.page + List.count x (disk_after_drop s) +
            (if x = a then 1 else 0)
        else List.count x s.cache + List.count x s.page + List.count x s.disk) ∧
      (WithinCapacity s → WithinCapacity s1) := by
  by_cases h1 : a ∈ s.cache
  · have hna : ¬ Absent s a := fun h => h.1 h1
    refine ⟨{ s with access_counts := bump s.access_counts a }, ?_, ⟨rfl, rfl, rfl⟩, h1, rfl,
      rfl, rfl, ?_, fun h => h⟩
    · rw [access_memory_cache s a h1]; simp [locate, h1]
    · intro x; rw [if_neg hna]
  · by_cases h2 : a ∈ s.page
    · have hna : ¬ Absent s a := fun h => h.2.1 h2
      obtain ⟨s1, hok, hrest⟩ := access_memory_page_sound s a hp h1 h2
      refine ⟨s1, ?_, hrest.1, hrest.2.1, hrest.2.2.1, hrest.2.2.2.1, hrest.2.2.2.2.1, ?_,
        hrest.2.2.2.2.2.2⟩
      · rw [hok]; simp [locate, h1, h2]
      · intro x; rw [if_neg hna]; exact hrest.2.2.2.2.2.1 x
    · by_cases h3 : a ∈ s.disk
      · have hna : ¬ Absent s a := fun h => h.2.2 h3
        obtain ⟨s1, hok, hrest⟩ := promote_sound
          { s with access_counts := bump s.access_counts a } a "disk" hp h3
        refine ⟨s1, ?_, hrest.1, hrest.2.1, hrest.2.2.1, hrest.2.2.2.1, hrest.2.2.2.2.1, ?_,
          hrest.2.2.2.2.2.2⟩
        · rw [access_memory_disk s a h1 h2 h3, hok]; simp [locate, h1, h2, h3]
        · intro x; rw [if_neg hna]; exact hrest.2.2.2.2.2.1 x
      · have ha : Absent s a := ⟨h1, h2, h3⟩
        have hnd := not_mem_disk_after_drop s a h3
        obtain ⟨s1, hok, hrest⟩ := promote_sound
          { s with access_counts := bump s.access_counts a, disk := disk_after_drop s ++ [a] }
          a "not found" hp (by simp)
        dsimp only at hrest
        refine ⟨s1, ?_, hrest.1, hrest.2.1, hrest.2.2.1, hrest.2.2.2.1, hrest.2.2.2.2.1, ?_, ?_⟩
        · rw [access_memory_miss s a ha,
            drop_oldest_sound { s with access_counts := bump s.access_counts a } hp.2.2]
          show ((move_to_page _ a).bind fun s2 =>
            (move_to_cache s2 a).bind fun s3 => Except.ok ("not found", s3)) = _
          have hloc : locate s a = "not found" := by simp [locate, h1, h2, h3]
          rw [hloc]
          exact hok
        · intro x
          rw [if_pos ha, hrest.2.2.2.2.2.1 x]
          simp only [List.count_append, List.count_cons, List.count_nil]
          by_cases hx : x = a
          · subst hx; simp; omega
          · have : (a == x) = false := by simpa using fun h => hx h.symm
            simp [hx, this]
        · intro hw
          apply hrest.2.2.2.2.2.2
          have := length_disk_after_drop s hp.2.2 hw.2.2
          refine ⟨hw.1, hw.2.1, ?_⟩
          simp
          omega

/-! ## Construction -/

theorem address_of_injective : Function.Injective address_of := fun _ _ h => name_injective h

theorem address_of_not_mem (f : Nat → Bool) (n : Nat) :
    address_of n ∉ ((List.range n).filter f).map address_of := by
  intro h
  obtain ⟨j, hj, he⟩ := List.mem_map.mp h
  have hjn := address_of_injective he
  subst hjn
  have := (List.mem_filter.mp hj).1
  simp at this

theorem length_filter_range_le (f : Nat → Bool) (n : Nat) :
    (((List.range n).filter f).map address_of).length ≤ n := by
  rw [List.length_map]
  exact (List.length_filter_le _ _).trans (by simp)

theorem erase_append_self (l : List String) (a : String) (h : a ∉ l) :
    (l ++ [a]).erase a = l := by
  rw [List.erase_append_right _ h]
  simp

theorem init_loop_append (c_size p_size : Int) (l1 l2 : List Nat) : ∀ s : MemorySimulator,
    init_loop c_size p_size s (l1 ++ l2) =
      (init_loop c_size p_size s l1).bind fun s1 => init_loop c_size p_size s1 l2 := by
  induction l1 with
  | nil => intro s; rfl
  | cons i is ih =>
    intro s
    simp only [List.cons_append, init_loop]
    cases h : init_step c_size p_size s i with
    | error e => rfl
    | ok s1 => exact ih s1

/-- One iteration of the constructor's loop never evicts and never faults. -/
theorem init_step_after (c_size p_size d_size : Int) (hc : IsInt c_size) (hp : IsInt p_size)
    (n : Nat) :
    init_step c_size p_size (init_after c_size p_size d_size n) n =
      .ok (init_after c_size p_size d_size (n + 1)) := by
  have hd := address_of_not_mem (fun i => decide (¬ (i : Int) < p_size)) n
  have hpg := address_of_not_mem (fun i => decide ((i : Int) < p_size ∧ ¬ (i : Int) < c_size)) n
  have hlp := length_filter_range_le
    (fun i => decide ((i : Int) < p_size ∧ ¬ (i : Int) < c_size)) n
  have hlc := length_filter_range_le
    (fun i => decide ((i : Int) < p_size ∧ (i : Int) < c_size)) n
  have fC : List.filter (fun (i : Nat) => decide ((i : Int) < p_size ∧ (i : Int) < c_size)) [n] =
      if (n : Int) < p_size ∧ (n : Int) < c_size then [n] else [] := by
    simp only [List.filter_cons, List.filter_nil, decide_eq_true_eq]
  have fP : List.filter (fun (i : Nat) => decide ((i : Int) < p_size ∧ ¬ (i : Int) < c_size))
      [n] = if (n : Int) < p_size ∧ ¬ (n : Int) < c_size then [n] else [] := by
    simp only [List.filter_cons, List.filter_nil, decide_eq_true_eq]
  have fD : List.filter (fun (i : Nat) => decide (¬ (i : Int) < p_size)) [n] =
      if ¬ (n : Int) < p_size then [n] else [] := by
    simp only [List.filter_cons, List.filter_nil, decide_eq_true_eq]
  unfold init_step
  simp only [init_after, List.range_succ, List.filter_append, List.map_append, fC, fP, fD]
  change (if (n : Int) < p_size then _ else _) = _
  by_cases h1 : (n : Int) < p_size
  · have hsp := toSizeT_of_nonneg (x := p_size) (by omega) hp.2
    rw [if_pos h1]
    rw [move_to_page_room _ _ (by simp only []; omega)]
    simp only [Except.bind]
    by_cases h2 : (n : Int) < c_size
    · have hsc := toSizeT_of_nonneg (x := c_size) (by omega) hc.2
      rw [if_pos h2, move_to_cache_room _ _ (by simp only []; omega)]
      simp only [erase_append_self _ _ hd, erase_append_self _ _ hpg, h1, h2, and_self,
        not_true_eq_false, and_false, if_true, if_false, List.map_nil, List.map_cons,
        List.append_nil]
    · rw [if_neg h2]
      simp only [erase_append_self _ _ hd, h1, h2, and_self, and_false,
        not_true_eq_false, not_false_eq_true, if_true, if_false, List.map_nil, List.map_cons,
        List.append_nil]
  · rw [if_neg h1]
    simp only [h1, false_and, not_false_eq_true, if_true, if_false, List.map_nil,
      List.map_cons, List.append_nil]

theorem init_loop_range (c_size p_size d_size : Int) (hc : IsInt c_size) (hp : IsInt p_size)
    (n : Nat) :
    init_loop c_size p_size (init_after c_size p_size d_size 0) (List.range n) =
      .ok (init_after c_size p_size d_size n) := by
  induction n with
  | zero => rfl
  | succ k ih =>
    rw [List.range_succ, init_loop_append, ih]
    simp only [Except.bind, init_loop]
    rw [init_step_after c_size p_size d_size hc hp k]

/-- The constructor never faults; the state it builds is the closed form `init_after`. -/
theorem init_eq (c_size p_size d_size : Int) (hc : IsInt c_size) (hp : IsInt p_size) :
    MemorySimulator.init c_size p_size d_size =
      .ok (init_after c_size p_size d_size d_size.toNat) :=
  init_loop_range c_size p_size d_size hc hp d_size.toNat

/-! ## Invariants -/

theorem exclusive_iff (s : MemorySimulator) :
    Exclusive s ↔
      ∀ x, List.count x s.cache + List.count x s.page + List.count x s.disk ≤ 1 := by
  unfold Exclusive
  rw [List.nodup_iff_count_le_one]
  simp only [List.count_append]

theorem count_disk_after_drop_le (s : MemorySimulator) (x : String) :
    List.count x (disk_after_drop s) ≤ List.count x s.disk := by
  unfold disk_after_drop
  split
  · exact (List.tail_sublist s.disk).count_le x
  · exact le_refl _

theorem exclusive_access (s s1 : MemorySimulator) (a : String)
    (hcount : ∀ x, List.count x s1.cache + List.count x s1.page + List.count x s1.disk =
      if Absent s a then
        List.count x s.cache + List.count x s.page + List.count x (disk_after_drop s) +
          (if x = a then 1 else 0)
      else List.count x s.cache + List.count x s.page + List.count x s.disk)
    (h : Exclusive s) : Exclusive s1 := by
  rw [exclusive_iff] at h ⊢
  intro x
  rw [hcount x]
  have hx := h x
  have hle := count_disk_after_drop_le s x
  by_cases ha : Absent s a
  · rw [if_pos ha]
    by_cases hxa : x = a
    · subst hxa
      have h1 := count_zero_of_not_mem _ _ ha.1
      have h2 := count_zero_of_not_mem _ _ ha.2.1
      have h3 := count_zero_of_not_mem _ _ ha.2.2
      rw [if_pos rfl]
      omega
    · rw [if_neg hxa]; omega
  · rw [if_neg ha]; exact hx

theorem posCaps_of_sameCaps {s s1 : MemorySimulator} (h : SameCaps s s1) (hp : PosCaps s) :
    PosCaps s1 := by
  unfold PosCaps
  rw [h.1, h.2.1, h.2.2]
  exact hp

/-- Every sequence of accesses from a state with capacities at least 1 runs to the end and
preserves both invariants. -/
theorem access_all_sound (addrs : List String) : ∀ s : MemorySimulator, PosCaps s →
    ∃ s1, access_all s addrs = .ok s1 ∧ SameCaps s s1 ∧
      (Exclusive s → Exclusive s1) ∧ (WithinCapacity s → WithinCapacity s1) := by
  induction addrs with
  | nil => intro s _; exact ⟨s, rfl, ⟨rfl, rfl, rfl⟩, id, id⟩
  | cons a as ih =>
    intro s hp
    obtain ⟨s1, hok, hsame, _, _, _, _, hcount, hcap⟩ := access_memory_sound s a hp
    obtain ⟨s2, hok2, hsame2, hex2, hcap2⟩ := ih s1 (posCaps_of_sameCaps hsame hp)
    refine ⟨s2, ?_, ⟨hsame2.1.trans hsame.1, hsame2.2.1.trans hsame.2.1,
      hsame2.2.2.trans hsame.2.2⟩, fun h => hex2 (exclusive_access s s1 a hcount h),
      fun h => hcap2 (hcap h)⟩
    simp only [access_all, hok, Except.bind]
    exact hok2

theorem exclusive_init_after (c_size p_size d_size : Int) (n : Nat) :
    Exclusive (init_after c_size p_size d_size n) := by
  unfold Exclusive init_after
  simp only [← List.map_append]
  apply List.Nodup.map address_of_injective
  have hr := List.nodup_range n
  rw [List.nodup_append, List.nodup_append]
  refine ⟨⟨hr.filter _, hr.filter _, ?_⟩, hr.filter _, ?_⟩
  · intro i h1 h2
    have a1 := (List.mem_filter.mp h1).2
    have a2 := (List.mem_filter.mp h2).2
    simp only [decide_eq_true_eq] at a1 a2
    exact a2.2 a1.2
  · intro i h1 h2
    have a2 := (List.mem_filter.mp h2).2
    simp only [decide_eq_true_eq] at a2
    rcases List.mem_append.mp h1 with h | h
    · have a1 := (List.mem_filter.mp h).2
      simp only [decide_eq_true_eq] at a1
      exact a2 a1.1
    · have a1 := (List.mem_filter.mp h).2
      simp only [decide_eq_true_eq] at a1
      exact a2 a1.1

theorem length_filter_range_bound (f : Nat → Bool) (n m : Nat) (h : ∀ i, f i = true → i < m) :
    ((List.range n).filter f).length ≤ m := by
  have hsub : (List.range n).filter f ⊆ List.range m := by
    intro i hi
    exact List.mem_range.mpr (h i (List.mem_filter.mp hi).2)
  have := (List.subperm_of_subset ((List.nodup_range n).filter _) hsub).length_le
  simpa using this

theorem withinCapacity_init_after (c_size p_size d_size : Int) (hc : 0 ≤ c_size)
    (hp : 0 ≤ p_size) (hd : 0 ≤ d_size) :
    WithinCapacity (init_after c_size p_size d_size d_size.toNat) := by
  unfold WithinCapacity init_after
  simp only [List.length_map]
  refine ⟨?_, ?_, ?_⟩
  · have := length_filter_range_bound
      (fun (i : Nat) => decide ((i : Int) < p_size ∧ (i : Int) < c_size)) d_size.toNat
      c_size.toNat (by intro i hi; simp only [decide_eq_true_eq] at hi; omega)
    omega
  · have := length_filter_range_bound
      (fun (i : Nat) => decide ((i : Int) < p_size ∧ ¬ (i : Int) < c_size)) d_size.toNat
      p_size.toNat (by intro i hi; simp only [decide_eq_true_eq] at hi; omega)
    omega
  · have := (List.length_filter_le (fun (i : Nat) => decide (¬ (i : Int) < p_size))
      (List.range d_size.toNat))
    simp only [List.length_range] at this
    omega

/-- Construction followed by any accesses, with capacities at least 1: the run completes
and the state reached satisfies both invariants. -/
theorem boot_and_access_sound (c_size p_size d_size : Int) (hc : PosCap c_size)
    (hp : PosCap p_size) (hd : PosCap d_size) (addrs : List String) :
    ∃ s, boot_and_access c_size p_size d_size addrs = .ok s ∧
      s.cache_size = c_size ∧ s.page_size = p_size ∧ s.disk_size = d_size ∧
      Exclusive s ∧ WithinCapacity s := by
  have hic : IsInt c_size := ⟨le_trans (by decide) hc.1, hc.2⟩
  have hip : IsInt p_size := ⟨le_trans (by decide) hp.1, hp.2⟩
  have hpos : PosCaps (init_after c_size p_size d_size d_size.toNat) := ⟨hc, hp, hd⟩
  obtain ⟨s, hok, hsame, hex, hcap⟩ := access_all_sound addrs _ hpos
  refine ⟨s, ?_, hsame.1, hsame.2.1, hsame.2.2, hex (exclusive_init_after _ _ _ _),
    hcap (withinCapacity_init_after _ _ _ (le_trans (by decide) hc.1)
      (le_trans (by decide) hp.1) (le_trans (by decide) hd.1))⟩
  unfold boot_and_access
  rw [init_eq c_size p_size d_size hic hip]
  exact hok

theorem label_eq_locate (s : MemorySimulator) (a lab : String) (s1 : MemorySimulator)
    (h : access_memory s a = .ok (lab, s1)) : lab = locate s a := by
  unfold access_memory at h
  unfold locate
  dsimp only at h
  split_ifs at h with h1 h2 h3
  · rw [if_pos h1]
    simp only [Except.ok.injEq, Prod.mk.injEq] at h
    exact h.1.symm
  · rw [if_neg h1, if_pos h2]
    cases hm : move_to_cache { s with access_counts := bump s.access_counts a } a with
    | error e => rw [hm] at h; simp [Except.bind] at h
    | ok t => rw [hm] at h; simp [Except.bind] at h; exact h.1.symm
  · rw [if_neg h1, if_neg h2, if_pos h3]
    cases hm : move_to_page { s with access_counts := bump s.access_counts a } a with
    | error e => rw [hm] at h; simp [Except.bind] at h
    | ok t =>
      rw [hm] at h
      simp only [Except.bind] at h
      cases hm2 : move_to_cache t a with
      | error e => rw [hm2] at h; simp at h
      | ok t2 => rw [hm2] at h; simp at h; exact h.1.symm
  · rw [if_neg h1, if_neg h2, if_neg h3]
    cases hm0 : drop_oldest { s with access_counts := bump s.access_counts a } with
    | error e => rw [hm0] at h; simp [Except.bind] at h
    | ok t0 =>
      rw [hm0] at h
      simp only [Except.bind] at h
      cases hm : move_to_page { t0 with disk := t0.disk ++ [a] } a with
      | error e => rw [hm] at h; simp at h
      | ok t =>
        rw [hm] at h
        simp only at h
        cases hm2 : move_to_cache t a with
        | error e => rw [hm2] at h; simp at h
        | ok t2 => rw [hm2] at h; simp at h; exact h.1.symm

theorem locate_iff (s : MemorySimulator) (a : String) :
    (locate s a = "cache" ↔ a ∈ s.cache) ∧
      (locate s a = "page" ↔ a ∉ s.cache ∧ a ∈ s.page) ∧
      (locate s a = "disk" ↔ a ∉ s.cache ∧ a ∉ s.page ∧ a ∈ s.disk) ∧
      (locate s a = "not found" ↔ a ∉ s.cache ∧ a ∉ s.page ∧ a ∉ s.disk) := by
  unfold locate
  by_cases h1 : a ∈ s.cache
  · simp [h1]
  · by_cases h2 : a ∈ s.page
    · simp [h1, h2]
    · by_cases h3 : a ∈ s.disk
      · simp [h1, h2, h3]
      · simp [h1, h2, h3]

/-! ## Empty tiers with capacity 0 -/

theorem toSizeT_zero : toSizeT 0 = 0 := by decide

theorem move_to_cache_fault (s : MemorySimulator) (a : String) (h : s.cache = [])
    (h0 : s.cache_size = 0) : move_to_cache s a = .error .emptyVictim := by
  simp [move_to_cache, h, h0, toSizeT_zero, min_element]

theorem move_to_page_fault (s : MemorySimulator) (a : String) (h : s.page = [])
    (h0 : s.page_size = 0) : move_to_page s a = .error .emptyVictim := by
  simp [move_to_page, h, h0, toSizeT_zero, min_element]

theorem drop_oldest_fault (s : MemorySimulator) (h : s.disk = []) (h0 : s.disk_size = 0) :
    drop_oldest s = .error .emptyErase := by
  simp [drop_oldest, h, h0, toSizeT_zero]

theorem move_to_page_frame (s t : MemorySimulator) (a : String)
    (h : move_to_page s a = .ok t) : t.cache = s.cache ∧ t.cache_size = s.cache_size := by
  unfold move_to_page at h
  dsimp only at h
  split_ifs at h
  · split at h
    · exact absurd h (by simp)
    · simp only [Except.ok.injEq] at h
      rw [← h]
      exact ⟨rfl, rfl⟩
  · simp only [Except.ok.injEq] at h
    rw [← h]
    exact ⟨rfl, rfl⟩

theorem drop_oldest_frame (s t : MemorySimulator) (h : drop_oldest s = .ok t) :
    t.cache = s.cache ∧ t.page = s.page ∧ t.cache_size = s.cache_size ∧
      t.page_size = s.page_size := by
  unfold drop_oldest at h
  split_ifs at h
  · split at h
    · exact absurd h (by simp)
    · simp only [Except.ok.injEq] at h
      rw [← h]
      exact ⟨rfl, rfl, rfl, rfl⟩
  · simp only [Except.ok.injEq] at h
    rw [← h]
    exact ⟨rfl, rfl, rfl, rfl⟩

/-- An access in a state whose cache is empty with capacity 0, or whose cache and page are
empty with page capacity 0, or whose tiers are all empty with disk capacity 0, faults. -/
theorem access_memory_fault (s : MemorySimulator) (a : String)
    (h : (s.cache = [] ∧ s.cache_size = 0) ∨
      (s.cache = [] ∧ s.page = [] ∧ s.page_size = 0) ∨
      (s.cache = [] ∧ s.page = [] ∧ s.disk = [] ∧ s.disk_size = 0)) :
    ∃ f, access_memory s a = .error f := by
  have hcache : s.cache = [] := by
    rcases h with h | h | h
    · exact h.1
    · exact h.1
    · exact h.1
  have h1 : a ∉ s.cache := by rw [hcache]; simp
  by_cases h2 : a ∈ s.page
  · rcases h with h | h | h
    · rw [access_memory_page s a h1 h2,
        move_to_cache_fault { s with access_counts := bump s.access_counts a } a h.1 h.2]
      exact ⟨_, rfl⟩
    · rw [h.2.1] at h2; simp at h2
    · rw [h.2.1] at h2; simp at h2
  · by_cases h3 : a ∈ s.disk
    · rw [access_memory_disk s a h1 h2 h3]
      rcases h with h | h | h
      · cases hm : move_to_page { s with access_counts := bump s.access_counts a } a with
        | error e => exact ⟨e, rfl⟩
        | ok t =>
          obtain ⟨e1, e2⟩ := move_to_page_frame _ t a hm
          simp only [Except.bind]
          rw [move_to_cache_fault t a (e1.trans h.1) (e2.trans h.2)]
          exact ⟨_, rfl⟩
      · rw [move_to_page_fault { s with access_counts := bump s.access_counts a } a
          h.2.1 h.2.2]
        exact ⟨_, rfl⟩
      · rw [h.2.2.1] at h3; simp at h3
    · rw [access_memory_miss s a ⟨h1, h2, h3⟩]
      cases hm0 : drop_oldest { s with access_counts := bump s.access_counts a } with
      | error e => exact ⟨e, rfl⟩
      | ok t0 =>
        obtain ⟨d1, d2, d3, d4⟩ := drop_oldest_frame _ t0 hm0
        dsimp only at d1 d2 d3 d4
        simp only [Except.bind]
        rcases h with h | h | h
        · cases hm : move_to_page { t0 with disk := t0.disk ++ [a] } a with
          | error e => exact ⟨e, rfl⟩
          | ok t =>
            obtain ⟨e1, e2⟩ := move_to_page_frame _ t a hm
            dsimp only at e1 e2
            simp only
            rw [move_to_cache_fault t a (e1.trans (d1.trans h.1)) (e2.trans (d3.trans h.2))]
            exact ⟨_, rfl⟩
        · rw [move_to_page_fault { t0 with disk := t0.disk ++ [a] } a (d2.trans h.2.1)
            (d4.trans h.2.2)]
          exact ⟨_, rfl⟩
        · rw [drop_oldest_fault { s with access_counts := bump s.access_counts a }
            h.2.2.1 h.2.2.2] at hm0
          exact absurd hm0 (by simp)

/-- With a capacity of 0 the constructor completes and every first access faults. -/
theorem zero_capacity_first_access_faults (c_size p_size d_size : Int) (hc : IsInt c_size)
    (hp : IsInt p_size) (hz : c_size = 0 ∨ p_size = 0 ∨ d_size = 0) (a : String) :
    ∃ s, MemorySimulator.init c_size p_size d_size = .ok s ∧
      ∃ f, access_memory s a = .error f := by
  refine ⟨_, init_eq c_size p_size d_size hc hp, ?_⟩
  apply access_memory_fault
  rcases hz with h | h | h
  · left
    subst h
    refine ⟨?_, rfl⟩
    simp [init_after]
  · right; left
    subst h
    refine ⟨?_, ?_, rfl⟩
    · simp [init_after]
    · simp [init_after]
  · right; right
    subst h
    exact ⟨rfl, rfl, rfl, rfl⟩

/-! ## The claims -/

/-- C1 (mutual exclusion, T1): for capacities that are all at least 1 and every finite
sequence of `access_memory` calls after construction, the run completes and in the state
reached every address occurs at most once in `cache ++ page ++ disk`.  The empty sequence
is the state after construction and every prefix of a sequence is a sequence, so this is
the state after construction and after each call. -/
theorem C1_mutual_exclusion (c_size p_size d_size : Int) (hc : PosCap c_size)
    (hp : PosCap p_size) (hd : PosCap d_size) (addrs : List String) :
    ∃ s, boot_and_access c_size p_size d_size addrs = .ok s ∧
      ∀ a, List.count a (s.cache ++ s.page ++ s.disk) ≤ 1 := by
  obtain ⟨s, hok, _, _, _, hex, _⟩ := boot_and_access_sound c_size p_size d_size hc hp hd addrs
  exact ⟨s, hok, fun a => List.nodup_iff_count_le_one.mp hex a⟩

theorem C1_mutual_exclusion_witness :
    PosCap 1 ∧ PosCap 2 ∧ PosCap 3 ∧
      ∃ s, boot_and_access 1 2 3 ["A1", "X", "A0", "Y", "Z", "A2"] = .ok s ∧
        ∀ a, List.count a (s.cache ++ s.page ++ s.disk) ≤ 1 :=
  ⟨by decide, by decide, by decide,
    C1_mutual_exclusion 1 2 3 (by decide) (by decide) (by decide)
      ["A1", "X", "A0", "Y", "Z", "A2"]⟩

/-- C2 (capacity, T2): for capacities that are all at least 1 and every finite sequence of
`access_memory` calls after construction, the run completes and in the state reached
`|cache| ≤ cache_size`, `|page| ≤ page_size` and `|disk| ≤ disk_size`. -/
theorem C2_capacity (c_size p_size d_size : Int) (hc : PosCap c_size)
    (hp : PosCap p_size) (hd : PosCap d_size) (addrs : List String) :
    ∃ s, boot_and_access c_size p_size d_size addrs = .ok s ∧
      s.cache_size = c_size ∧ s.page_size = p_size ∧ s.disk_size = d_size ∧
      (s.cache.length : Int) ≤ c_size ∧ (s.page.length : Int) ≤ p_size ∧
      (s.disk.length : Int) ≤ d_size := by
  obtain ⟨s, hok, h1, h2, h3, _, hcap⟩ :=
    boot_and_access_sound c_size p_size d_size hc hp hd addrs
  refine ⟨s, hok, h1, h2, h3, ?_, ?_, ?_⟩
  · rw [← h1]; exact hcap.1
  · rw [← h2]; exact hcap.2.1
  · rw [← h3]; exact hcap.2.2

theorem C2_capacity_witness :
    PosCap 1 ∧ PosCap 2 ∧ PosCap 3 ∧
      ∃ s, boot_and_access 1 2 3 ["X", "Y", "Z", "W", "A0"] = .ok s ∧
        s.cache_size = 1 ∧ s.page_size = 2 ∧ s.disk_size = 3 ∧
        (s.cache.length : Int) ≤ 1 ∧ (s.page.length : Int) ≤ 2 ∧
        (s.disk.length : Int) ≤ 3 :=
  ⟨by decide, by decide, by decide,
    C2_capacity 1 2 3 (by decide) (by decide) (by decide) ["X", "Y", "Z", "W", "A0"]⟩

/-- C3 (classification): for every state and every address, a label returned by
`access_memory` is the tier that held the address before the call: "cache" iff it was in
cache, "page" iff it was in page and not in cache, "disk" iff it was on disk and in neither
cache nor page, "not found" iff it was in no tier.  With capacities at least 1 the call
returns such a label, and the address is in cache afterwards. -/
theorem C3_classification (s : MemorySimulator) (a : String) :
    (∀ lab s1, access_memory s a = .ok (lab, s1) →
      (lab = "cache" ↔ a ∈ s.cache) ∧
      (lab = "page" ↔ a ∉ s.cache ∧ a ∈ s.page) ∧
      (lab = "disk" ↔ a ∉ s.cache ∧ a ∉ s.page ∧ a ∈ s.disk) ∧
      (lab = "not found" ↔ a ∉ s.cache ∧ a ∉ s.page ∧ a ∉ s.disk)) ∧
    (PosCaps s → ∃ lab s1, access_memory s a = .ok (lab, s1) ∧ a ∈ s1.cache) := by
  refine ⟨?_, ?_⟩
  · intro lab s1 h
    rw [label_eq_locate s a lab s1 h]
    exact locate_iff s a
  · intro hp
    obtain ⟨s1, hok, _, hmem, _⟩ := access_memory_sound s a hp
    exact ⟨_, s1, hok, hmem⟩

theorem C3_classification_witness :
    PosCaps (init_after 1 2 3 3) ∧
      ∃ lab s1, access_memory (init_after 1 2 3 3) "A2" = .ok (lab, s1) ∧ lab = "disk" := by
  have h := C3_classification (init_after 1 2 3 3) "A2"
  obtain ⟨lab, s1, hok, _⟩ := h.2 (by decide)
  exact ⟨by decide, lab, s1, hok, (h.1 lab s1 hok).2.2.1.mpr (by decide)⟩


/-! ## The simulation loop -/

theorem latencyTable_of_access (s : MemorySimulator) (a lab : String) (s1 : MemorySimulator)
    (h : access_memory s a = .ok (lab, s1)) : LatencyTable ⟨a, latency lab, lab⟩ := by
  have hl := label_eq_locate s a lab s1 h
  have hcases : lab = "cache" ∨ lab = "page" ∨ lab = "disk" ∨ lab = "not found" := by
    rw [hl]; unfold locate
    split_ifs <;> simp
  unfold LatencyTable
  rcases hcases with h | h | h | h <;> subst h <;> simp [latency]

theorem run_addresses_records (addrs : List String) : ∀ (s : MemorySimulator) (p : Process)
    (s1 : MemorySimulator) (p1 : Process), run_addresses s p addrs = .ok (s1, p1) →
    p1.addresses_to_access = p.addresses_to_access ∧
    ∃ recs : List MemoryAccess, p1.memory_accesses = p.memory_accesses ++ recs ∧
      recs.map (fun m => m.address) = addrs ∧ ∀ m ∈ recs, LatencyTable m := by
  induction addrs with
  | nil =>
    intro s p s1 p1 h
    simp only [run_addresses, Except.ok.injEq, Prod.mk.injEq] at h
    rw [← h.2]
    exact ⟨rfl, [], by simp, rfl, by simp⟩
  | cons a as ih =>
    intro s p s1 p1 h
    simp only [run_addresses] at h
    cases hm : access_memory s a with
    | error e => rw [hm] at h; simp [Except.bind] at h
    | ok r =>
      obtain ⟨lab, t⟩ := r
      rw [hm] at h
      simp only [Except.bind] at h
      obtain ⟨hadr, recs, hrec, hmap, htab⟩ := ih _ _ s1 p1 h
      refine ⟨hadr, ⟨a, latency lab, lab⟩ :: recs, ?_, ?_, ?_⟩
      · rw [hrec]; simp
      · simp [hmap]
      · intro m hmem
        rcases List.mem_cons.mp hmem with h0 | h0
        · rw [h0]; exact latencyTable_of_access s a lab t hm
        · exact htab m h0

theorem run_process_records (s : MemorySimulator) (p : Process) (s1 : MemorySimulator)
    (p1 : Process) (h : run_process s p = .ok (s1, p1)) : RecordsAdded p p1 := by
  unfold run_process at h
  dsimp only at h
  cases hm : run_addresses
      (if s.current_time < p.arrival_time then { s with current_time := p.arrival_time } else s)
      { p with start_time := (if s.current_time < p.arrival_time then
          { s with current_time := p.arrival_time } else s).current_time }
      p.addresses_to_access with
  | error e => rw [hm] at h; simp [Except.bind] at h
  | ok r =>
    obtain ⟨t, q⟩ := r
    rw [hm] at h
    simp only [Except.bind, Except.ok.injEq, Prod.mk.injEq] at h
    obtain ⟨_, recs, hrec, hmap, htab⟩ := run_addresses_records _ _ _ t q hm
    rw [← h.2]
    exact ⟨recs, hrec, hmap, htab⟩

theorem run_processes_records (ps : List Process) : ∀ (s s1 : MemorySimulator)
    (ps1 : List Process), run_processes s ps = .ok (s1, ps1) →
    List.Forall₂ RecordsAdded ps ps1 := by
  induction ps with
  | nil =>
    intro s s1 ps1 h
    simp only [run_processes, Except.ok.injEq, Prod.mk.injEq] at h
    rw [← h.2]
    exact List.Forall₂.nil
  | cons p ps ih =>
    intro s s1 ps1 h
    simp only [run_processes] at h
    cases hm : run_process s p with
    | error e => rw [hm] at h; simp [Except.bind] at h
    | ok r =>
      obtain ⟨t, q⟩ := r
      rw [hm] at h
      simp only [Except.bind] at h
      cases hm2 : run_processes t ps with
      | error e => rw [hm2] at h; simp at h
      | ok r2 =>
        obtain ⟨t2, qs⟩ := r2
        rw [hm2] at h
        simp only [Except.ok.injEq, Prod.mk.injEq] at h
        rw [← h.2]
        exact List.Forall₂.cons (run_process_records s p t q hm) (ih t t2 qs hm2)

theorem run_addresses_total (addrs : List String) : ∀ (s : MemorySimulator) (p : Process),
    PosCaps s → ∃ s1 p1, run_addresses s p addrs = .ok (s1, p1) ∧ PosCaps s1 := by
  induction addrs with
  | nil => intro s p hp; exact ⟨s, p, rfl, hp⟩
  | cons a as ih =>
    intro s p hp
    obtain ⟨t, hok, hsame, _⟩ := access_memory_sound s a hp
    have hp1 : PosCaps
        { t with current_time := wrap_int (t.current_time + latency (locate s a)) } :=
      posCaps_of_sameCaps hsame hp
    obtain ⟨s1, p1, hrun, hp2⟩ := ih _
      { p with
          memory_accesses := p.memory_accesses ++ [⟨a, latency (locate s a), locate s a⟩],
          total_execution_time :=
            wrap_int (p.total_execution_time + latency (locate s a)) } hp1
    refine ⟨s1, p1, ?_, hp2⟩
    simp only [run_addresses, hok, Except.bind]
    exact hrun

theorem run_process_total (s : MemorySimulator) (p : Process) (hp : PosCaps s) :
    ∃ s1 p1, run_process s p = .ok (s1, p1) ∧ PosCaps s1 := by
  have hp1 : PosCaps (if s.current_time < p.arrival_time then
      { s with current_time := p.arrival_time } else s) := by
    split
    · exact hp
    · exact hp
  obtain ⟨s1, p1, hrun, hp2⟩ := run_addresses_total p.addresses_to_access _
    { p with start_time := (if s.current_time < p.arrival_time then
        { s with current_time := p.arrival_time } else s).current_time } hp1
  refine ⟨s1, { p1 with end_time := s1.current_time }, ?_, hp2⟩
  unfold run_process
  dsimp only
  rw [hrun]
  rfl

theorem run_processes_total (ps : List Process) : ∀ s : MemorySimulator, PosCaps s →
    ∃ s1 ps1, run_processes s ps = .ok (s1, ps1) ∧ PosCaps s1 := by
  induction ps with
  | nil => intro s hp; exact ⟨s, [], rfl, hp⟩
  | cons p ps ih =>
    intro s hp
    obtain ⟨t, q, hrun, hp1⟩ := run_process_total s p hp
    obtain ⟨t2, qs, hrun2, hp2⟩ := ih t hp1
    refine ⟨t2, q :: qs, ?_, hp2⟩
    simp only [run_processes, hrun, Except.bind, hrun2]

/-- C4 (latency table): whatever rearrangement `std::sort` computes, every record that
`run_simulation` appends to a process is charged by the table: 1 for "cache", 10 for
"page", 100 for "disk" and for "not found", and no other pair of label and latency occurs;
each process gets exactly one record per address, in order.  With capacities at least 1
the simulation runs to completion. -/
theorem C4_latency_table (sort : List Process → List Process) (s : MemorySimulator) :
    (∀ s1, run_simulation sort s = .ok s1 →
      List.Forall₂ RecordsAdded (sort s.processes) s1.processes) ∧
    (PosCaps s → ∃ s1, run_simulation sort s = .ok s1) := by
  refine ⟨?_, ?_⟩
  · intro s1 h
    unfold run_simulation at h
    dsimp only at h
    cases hm : run_processes { s with processes := sort s.processes } (sort s.processes) with
    | error e => rw [hm] at h; simp [Except.bind] at h
    | ok r =>
      obtain ⟨t, qs⟩ := r
      rw [hm] at h
      simp only [Except.bind, Except.ok.injEq] at h
      rw [← h]
      exact run_processes_records _ _ t qs hm
  · intro hp
    obtain ⟨t, qs, hrun, _⟩ := run_processes_total (sort s.processes)
      { s with processes := sort s.processes } hp
    refine ⟨{ t with processes := qs }, ?_⟩
    unfold run_simulation
    dsimp only
    rw [hrun]
    rfl

theorem C4_latency_table_witness :
    PosCaps sample_simulator ∧
      ∃ s1, run_simulation (List.insertionSort fun a b => a.arrival_time ≤ b.arrival_time)
          sample_simulator = .ok s1 ∧
        List.Forall₂ RecordsAdded
          (List.insertionSort (fun a b => a.arrival_time ≤ b.arrival_time)
            sample_simulator.processes) s1.processes := by
  have h := C4_latency_table (List.insertionSort fun a b => a.arrival_time ≤ b.arrival_time)
    sample_simulator
  obtain ⟨s1, hok⟩ := h.2 (by decide)
  exact ⟨by decide, s1, hok, h.1 s1 hok⟩


/-- C5 (promotion): for capacities at least 1, every state reached from construction by
accesses and every address `a`, the call `access_memory(a)` returns and leaves `a` in cache;
the next `access_memory(a)` returns "cache", which is charged latency 1. -/
theorem C5_promotion (c_size p_size d_size : Int) (hc : PosCap c_size)
    (hp : PosCap p_size) (hd : PosCap d_size) (addrs : List String) (a : String) :
    ∃ s lab s1 s2, boot_and_access c_size p_size d_size addrs = .ok s ∧
      access_memory s a = .ok (lab, s1) ∧ a ∈ s1.cache ∧
      access_memory s1 a = .ok ("cache", s2) ∧ latency "cache" = 1 := by
  obtain ⟨s, hok, h1, h2, h3, _, _⟩ := boot_and_access_sound c_size p_size d_size hc hp hd addrs
  have hpos : PosCaps s := by
    unfold PosCaps; rw [h1, h2, h3]; exact ⟨hc, hp, hd⟩
  obtain ⟨s1, hok1, _, hmem, _⟩ := access_memory_sound s a hpos
  exact ⟨s, _, s1, _, hok, hok1, hmem, access_memory_cache s1 a hmem, rfl⟩

theorem C5_promotion_witness :
    PosCap 1 ∧ PosCap 2 ∧ PosCap 3 ∧
      ∃ s lab s1 s2, boot_and_access 1 2 3 ["A1", "X"] = .ok s ∧
        access_memory s "A2" = .ok (lab, s1) ∧ "A2" ∈ s1.cache ∧
        access_memory s1 "A2" = .ok ("cache", s2) ∧ latency "cache" = 1 :=
  ⟨by decide, by decide, by decide,
    C5_promotion 1 2 3 (by decide) (by decide) (by decide) ["A1", "X"] "A2"⟩

/-- C6 (disk permanence): for capacities at least 1 and a state `s` reached from
construction by accesses whose disk is full and starts with `v`, a miss on `a` returns
"not found" and leaves `v` in none of cache, page and disk; the next `access_memory(v)`
returns "not found", which is charged latency 100. -/
theorem C6_disk_permanence (c_size p_size d_size : Int) (hc : PosCap c_size)
    (hp : PosCap p_size) (hd : PosCap d_size) (addrs : List String) (s : MemorySimulator)
    (hs : boot_and_access c_size p_size d_size addrs = .ok s)
    (a v : String) (rest : List String) (hdisk : s.disk = v :: rest)
    (hfull : (s.disk.length : Int) = s.disk_size) (hmiss : Absent s a) :
    ∃ s1 s2, access_memory s a = .ok ("not found", s1) ∧
      v ∉ s1.cache ∧ v ∉ s1.page ∧ v ∉ s1.disk ∧
      access_memory s1 v = .ok ("not found", s2) ∧ latency "not found" = 100 := by
  obtain ⟨s0, hok, h1, h2, h3, hex, _⟩ :=
    boot_and_access_sound c_size p_size d_size hc hp hd addrs
  rw [hs] at hok
  have hs0 : s = s0 := by injection hok
  subst hs0
  have hpos : PosCaps s := by
    unfold PosCaps; rw [h1, h2, h3]; exact ⟨hc, hp, hd⟩
  obtain ⟨s1, hok1, hsame, _, _, _, _, hcount, _⟩ := access_memory_sound s a hpos
  have hloc : locate s a = "not found" := by
    simp [locate, hmiss.1, hmiss.2.1, hmiss.2.2]
  rw [hloc] at hok1
  have hsz := toSizeT_of_nonneg (le_trans (by decide) hpos.2.2.1) hpos.2.2.2
  have hdrop : disk_after_drop s = rest := by
    unfold disk_after_drop
    rw [if_pos (by omega), hdisk]
    rfl
  have hva : v ≠ a := by
    intro h
    apply hmiss.2.2
    rw [hdisk, ← h]
    simp
  have hcv := hcount v
  rw [if_pos hmiss, hdrop, if_neg hva] at hcv
  have hexv := (exclusive_iff s).mp hex v
  rw [hdisk, List.count_cons_self] at hexv
  have hz : List.count v s1.cache = 0 ∧ List.count v s1.page = 0 ∧
      List.count v s1.disk = 0 := by omega
  have n1 : v ∉ s1.cache := List.count_eq_zero.mp hz.1
  have n2 : v ∉ s1.page := List.count_eq_zero.mp hz.2.1
  have n3 : v ∉ s1.disk := List.count_eq_zero.mp hz.2.2
  obtain ⟨s2, hok2, _⟩ := access_memory_sound s1 v (posCaps_of_sameCaps hsame hpos)
  have hloc2 : locate s1 v = "not found" := by simp [locate, n1, n2, n3]
  rw [hloc2] at hok2
  exact ⟨s1, s2, hok1, n1, n2, n3, hok2, rfl⟩

theorem C6_disk_permanence_witness :
    PosCap 1 ∧ boot_and_access 1 1 1 ["X", "Y"] = .ok full_simulator ∧
      full_simulator.disk = ["A0"] ∧
      (full_simulator.disk.length : Int) = full_simulator.disk_size ∧
      Absent full_simulator "Z" ∧
      ∃ s1 s2, access_memory full_simulator "Z" = .ok ("not found", s1) ∧
        "A0" ∉ s1.cache ∧ "A0" ∉ s1.page ∧ "A0" ∉ s1.disk ∧
        access_memory s1 "A0" = .ok ("not found", s2) ∧ latency "not found" = 100 :=
  ⟨by decide, rfl, rfl, by decide, by decide,
    C6_disk_permanence 1 1 1 (by decide) (by decide) (by decide) ["X", "Y"] full_simulator rfl
      "Z" "A0" [] rfl (by decide) (by decide)⟩

/-- C7 (zero capacity), evaluation of the source: with a capacity of 0 the constructor
completes, but the first `access_memory` call faults.  With `cache_size = 0` a page hit
selects a victim from the empty cache; with `page_size = 0` a disk hit selects a victim
from the empty page; with `disk_size = 0` a miss erases the head of the empty disk. -/
theorem C7_zero_capacity_faults :
    (MemorySimulator.init 0 1 1).map tiers = .ok ([], ["A0"], []) ∧
    ((MemorySimulator.init 0 1 1).bind fun s => access_memory s "A0").map
        (fun r => r.1) = .error .emptyVictim ∧
    (MemorySimulator.init 1 0 1).map tiers = .ok ([], [], ["A0"]) ∧
    ((MemorySimulator.init 1 0 1).bind fun s => access_memory s "A0").map
        (fun r => r.1) = .error .emptyVictim ∧
    (MemorySimulator.init 1 1 0).map tiers = .ok ([], [], []) ∧
    ((MemorySimulator.init 1 1 0).bind fun s => access_memory s "X").map
        (fun r => r.1) = .error .emptyErase := by
  decide

/-- C8 (bootstrap scenario), as the source behaves: capacities (1, 2, 3) yield
`cache = [A0]`, `page = [A1]`, `disk = [A2]`; index 2 is not below the page capacity 2, so
"A2" stays on disk. -/
theorem C8_bootstrap :
    (MemorySimulator.init 1 2 3).map tiers = .ok (["A0"], ["A1"], ["A2"]) := by
  decide

theorem C8_bootstrap_counterexample :
    (MemorySimulator.init 1 2 3).map tiers ≠ .ok (["A0"], ["A1", "A2"], []) := by
  decide


/-- C9 (relocation and capacity), as the source behaves: in a state within capacity with
capacities at least 1, `move_to_cache(a)` with `a` in page and `move_to_page(a)` with `a` on
disk return a state that is again within capacity.  The promoted address frees the slot
that the victim takes; nothing cascades further. -/
theorem C9_relocation_keeps_capacity (s : MemorySimulator) (a : String) (hp : PosCaps s)
    (hw : WithinCapacity s) :
    (a ∈ s.page → ∃ s1, move_to_cache s a = .ok s1 ∧ SameCaps s s1 ∧ WithinCapacity s1) ∧
    (a ∈ s.disk → ∃ s1, move_to_page s a = .ok s1 ∧ SameCaps s s1 ∧ WithinCapacity s1) := by
  refine ⟨?_, ?_⟩
  · intro ha
    obtain ⟨s1, hok, hdisk, hcs, hps, hds, _, _, _, _, _, hlen, hplen⟩ :=
      move_to_cache_sound s a hp.1
    have hl := length_erase_add_one s.page a ha
    refine ⟨s1, hok, ⟨hcs, hps, hds⟩, ?_, ?_, ?_⟩
    · rw [hcs]; exact hlen hw.1
    · rw [hps]; have := hw.2.1; omega
    · rw [hds, hdisk]; exact hw.2.2
  · intro ha
    obtain ⟨s1, hok, hcache, hcs, hps, hds, _, _, _, _, _, hlen, hdlen⟩ :=
      move_to_page_sound s a hp.2.1
    have hl := length_erase_add_one s.disk a ha
    refine ⟨s1, hok, ⟨hcs, hps, hds⟩, ?_, ?_, ?_⟩
    · rw [hcs, hcache]; exact hw.1
    · rw [hps]; exact hlen hw.2.1
    · rw [hds]; have := hw.2.2; omega

theorem C9_relocation_keeps_capacity_witness :
    PosCaps full_simulator ∧ WithinCapacity full_simulator ∧
      "X" ∈ full_simulator.page ∧ "A0" ∈ full_simulator.disk ∧
      (∃ s1, move_to_cache full_simulator "X" = .ok s1 ∧ SameCaps full_simulator s1 ∧
        WithinCapacity s1) ∧
      (∃ s1, move_to_page full_simulator "A0" = .ok s1 ∧ SameCaps full_simulator s1 ∧
        WithinCapacity s1) :=
  ⟨by decide, by decide, by decide, by decide,
    (C9_relocation_keeps_capacity full_simulator "X" (by decide) (by decide)).1 (by decide),
    (C9_relocation_keeps_capacity full_simulator "A0" (by decide) (by decide)).2 (by decide)⟩

theorem C9_strict_cascading_counterexample :
    PosCaps full_simulator ∧ Exclusive full_simulator ∧ WithinCapacity full_simulator ∧
      Absent full_simulator "Z" ∧
      (move_to_cache full_simulator "Z").map
          (fun s1 => (tiers s1, decide ((s1.page.length : Int) ≤ s1.page_size))) =
        .ok ((["Z"], ["X", "Y"], ["A0"]), false) ∧
      (move_to_page full_simulator "Z").map
          (fun s1 => (tiers s1, decide ((s1.disk.length : Int) ≤ s1.disk_size))) =
        .ok ((["Y"], ["Z"], ["A0", "X"]), false) := by
  decide

/-- C10 (victim selection): when `move_to_cache` finds the cache at or above its capacity
and non-empty, it succeeds, and the entry it removes from cache and appends to page sits at
a position `i` whose counter is minimal in cache and strictly smaller than every counter at
an earlier position; the other cache entries keep their order (`eraseIdx i`) and the
promoted address is appended.  The same holds for `move_to_page` with page and disk. -/
theorem C10_victim_selection (s : MemorySimulator) (a : String) :
    (toSizeT s.cache_size ≤ s.cache.length → s.cache ≠ [] →
      ∃ (i : Nat) (v : String), s.cache[i]? = some v ∧
        (∀ (j : Nat) (w : String), s.cache[j]? = some w →
          s.access_counts v ≤ s.access_counts w) ∧
        (∀ (j : Nat) (w : String), j < i → s.cache[j]? = some w →
          s.access_counts v < s.access_counts w) ∧
        move_to_cache s a =
          .ok { s with page := s.page.erase a ++ [v], cache := s.cache.eraseIdx i ++ [a] }) ∧
    (toSizeT s.page_size ≤ s.page.length → s.page ≠ [] →
      ∃ (i : Nat) (v : String), s.page[i]? = some v ∧
        (∀ (j : Nat) (w : String), s.page[j]? = some w →
          s.access_counts v ≤ s.access_counts w) ∧
        (∀ (j : Nat) (w : String), j < i → s.page[j]? = some w →
          s.access_counts v < s.access_counts w) ∧
        move_to_page s a =
          .ok { s with disk := s.disk.erase a ++ [v], page := s.page.eraseIdx i ++ [a] }) := by
  refine ⟨?_, ?_⟩
  · intro hfull hne
    obtain ⟨i, v, hv⟩ := min_element_of_ne_nil s.access_counts s.cache hne
    obtain ⟨h1, h2, h3⟩ := min_element_spec _ _ _ _ hv
    exact ⟨i, v, h1, h2, h3, move_to_cache_evict s a i v hfull hv⟩
  · intro hfull hne
    obtain ⟨i, v, hv⟩ := min_element_of_ne_nil s.access_counts s.page hne
    obtain ⟨h1, h2, h3⟩ := min_element_spec _ _ _ _ hv
    exact ⟨i, v, h1, h2, h3, move_to_page_evict s a i v hfull hv⟩

theorem C10_victim_selection_witness :
    (toSizeT ranked_simulator.cache_size ≤ ranked_simulator.cache.length ∧
      ranked_simulator.cache ≠ [] ∧
      ∃ (i : Nat) (v : String), ranked_simulator.cache[i]? = some v ∧
        (∀ (j : Nat) (w : String), ranked_simulator.cache[j]? = some w →
          ranked_simulator.access_counts v ≤ ranked_simulator.access_counts w) ∧
        (∀ (j : Nat) (w : String), j < i → ranked_simulator.cache[j]? = some w →
          ranked_simulator.access_counts v < ranked_simulator.access_counts w) ∧
        move_to_cache ranked_simulator "p" =
          .ok { ranked_simulator with
                page := ranked_simulator.page.erase "p" ++ [v],
                cache := ranked_simulator.cache.eraseIdx i ++ ["p"] }) ∧
    (toSizeT ranked_simulator.page_size ≤ ranked_simulator.page.length ∧
      ranked_simulator.page ≠ [] ∧
      ∃ (i : Nat) (v : String), ranked_simulator.page[i]? = some v ∧
        (∀ (j : Nat) (w : String), ranked_simulator.page[j]? = some w →
          ranked_simulator.access_counts v ≤ ranked_simulator.access_counts w) ∧
        (∀ (j : Nat) (w : String), j < i → ranked_simulator.page[j]? = some w →
          ranked_simulator.access_counts v < ranked_simulator.access_counts w) ∧
        move_to_page ranked_simulator "d" =
          .ok { ranked_simulator with
                disk := ranked_simulator.disk.erase "d" ++ [v],
                page := ranked_simulator.page.eraseIdx i ++ ["d"] }) :=
  ⟨⟨by decide, by decide,
      (C10_victim_selection ranked_simulator "p").1 (by decide) (by decide)⟩,
    ⟨by decide, by decide,
      (C10_victim_selection ranked_simulator "d").2 (by decide) (by decide)⟩⟩


/-! ## Counters -/

theorem move_to_cache_counts (s t : MemorySimulator) (a : String)
    (h : move_to_cache s a = .ok t) : t.access_counts = s.access_counts := by
  unfold move_to_cache at h
  dsimp only at h
  split_ifs at h
  · split at h
    · exact absurd h (by simp)
    · simp only [Except.ok.injEq] at h
      rw [← h]
  · simp only [Except.ok.injEq] at h
    rw [← h]

theorem move_to_page_counts (s t : MemorySimulator) (a : String)
    (h : move_to_page s a = .ok t) : t.access_counts = s.access_counts := by
  unfold move_to_page at h
  dsimp only at h
  split_ifs at h
  · split at h
    · exact absurd h (by simp)
    · simp only [Except.ok.injEq] at h
      rw [← h]
  · simp only [Except.ok.injEq] at h
    rw [← h]

theorem drop_oldest_counts (s t : MemorySimulator) (h : drop_oldest s = .ok t) :
    t.access_counts = s.access_counts := by
  unfold drop_oldest at h
  split_ifs at h
  · split at h
    · exact absurd h (by simp)
    · simp only [Except.ok.injEq] at h
      rw [← h]
  · simp only [Except.ok.injEq] at h
    rw [← h]

/-- Whatever path an access takes, the only change to the counters is the increment of the
counter of the address accessed. -/
theorem access_memory_counts (s : MemorySimulator) (a lab : String) (s1 : MemorySimulator)
    (h : access_memory s a = .ok (lab, s1)) : s1.access_counts = bump s.access_counts a := by
  unfold access_memory at h
  dsimp only at h
  split_ifs at h with h1 h2 h3
  · simp only [Except.ok.injEq, Prod.mk.injEq] at h
    rw [← h.2]
  · cases hm : move_to_cache { s with access_counts := bump s.access_counts a } a with
    | error e => rw [hm] at h; simp [Except.bind] at h
    | ok t =>
      rw [hm] at h
      simp only [Except.bind, Except.ok.injEq, Prod.mk.injEq] at h
      rw [← h.2]
      exact move_to_cache_counts _ t a hm
  · cases hm : move_to_page { s with access_counts := bump s.access_counts a } a with
    | error e => rw [hm] at h; simp [Except.bind] at h
    | ok t =>
      rw [hm] at h
      simp only [Except.bind] at h
      cases hm2 : move_to_cache t a with
      | error e => rw [hm2] at h; simp at h
      | ok t2 =>
        rw [hm2] at h
        simp only [Except.ok.injEq, Prod.mk.injEq] at h
        rw [← h.2]
        exact (move_to_cache_counts t t2 a hm2).trans (move_to_page_counts _ t a hm)
  · cases hm0 : drop_oldest { s with access_counts := bump s.access_counts a } with
    | error e => rw [hm0] at h; simp [Except.bind] at h
    | ok t0 =>
      rw [hm0] at h
      simp only [Except.bind] at h
      cases hm : move_to_page { t0 with disk := t0.disk ++ [a] } a with
      | error e => rw [hm] at h; simp at h
      | ok t =>
        rw [hm] at h
        simp only at h
        cases hm2 : move_to_cache t a with
        | error e => rw [hm2] at h; simp at h
        | ok t2 =>
          rw [hm2] at h
          simp only [Except.ok.injEq, Prod.mk.injEq] at h
          rw [← h.2]
          exact (move_to_cache_counts t t2 a hm2).trans
            ((move_to_page_counts _ t a hm).trans (drop_oldest_counts _ t0 hm0))

theorem wrap_int_of_isInt {x : Int} (h : IsInt x) : wrap_int x = x := by
  unfold wrap_int
  obtain ⟨h1, h2⟩ := h
  rw [Int.emod_eq_of_lt (by omega) (by omega)]
  omega

/-- Repeated cache hits on one address only count. -/
theorem access_all_hits (a : String) (n : Nat) : ∀ s : MemorySimulator, a ∈ s.cache →
    access_all s (List.replicate n a) =
      .ok { s with access_counts := (fun f => bump f a)^[n] s.access_counts } := by
  induction n with
  | zero => intro s _; rfl
  | succ k ih =>
    intro s h
    simp only [List.replicate_succ, access_all, access_memory_cache s a h, Except.bind]
    exact ih { s with access_counts := bump s.access_counts a } h

theorem iterate_bump_below (a : String) (n : Nat) : ∀ (f : String → Int) (k : Nat),
    f a = k → (k : Int) + n ≤ 2147483647 → ((fun g => bump g a)^[n] f) a = k + n := by
  induction n with
  | zero => intro f k hf _; simpa using hf
  | succ m ih =>
    intro f k hf hle
    rw [Function.iterate_succ_apply]
    have hb : bump f a a = ((k + 1 : Nat) : Int) := by
      simp only [bump, if_true, hf]
      rw [wrap_int_of_isInt ⟨by omega, by omega⟩]
      omega
    rw [ih (bump f a) (k + 1) hb (by omega)]
    omega

/-- After construction with capacities (1, 2, 3), `n ≤ INT_MAX` accesses to "A0" are cache
hits that leave its counter at `n`. -/
theorem hits_count_below (n : Nat) (m : Int) (hm : m = n) (hn : m ≤ 2147483647) :
    (boot_and_access 1 2 3 (List.replicate n "A0")).map
      (fun s => s.access_counts "A0") = .ok m := by
  have hmem : "A0" ∈ (init_after 1 2 3 (3 : Int).toNat).cache := by decide
  have h0 : (init_after 1 2 3 (3 : Int).toNat).access_counts "A0" = ((0 : Nat) : Int) := rfl
  unfold boot_and_access
  rw [init_eq 1 2 3 (by decide) (by decide)]
  simp only [Except.bind]
  rw [access_all_hits "A0" n _ hmem]
  simp only [Except.map, Except.ok.injEq]
  rw [iterate_bump_below "A0" n _ 0 h0 (by omega)]
  omega

/-- One access more than `INT_MAX` takes the counter of "A0" to `INT_MIN`. -/
theorem hits_count_wrap (n : Nat) (hn : (n : Int) = 2147483647) :
    (boot_and_access 1 2 3 (List.replicate (n + 1) "A0")).map
      (fun s => s.access_counts "A0") = .ok (-2147483648) := by
  have hmem : "A0" ∈ (init_after 1 2 3 (3 : Int).toNat).cache := by decide
  have h0 : (init_after 1 2 3 (3 : Int).toNat).access_counts "A0" = ((0 : Nat) : Int) := rfl
  unfold boot_and_access
  rw [init_eq 1 2 3 (by decide) (by decide)]
  simp only [Except.bind]
  rw [access_all_hits "A0" (n + 1) _ hmem]
  simp only [Except.map, Except.ok.injEq]
  rw [Function.iterate_succ_apply']
  simp only [bump, if_true]
  rw [iterate_bump_below "A0" n _ 0 h0 (by omega)]
  simp only [Nat.cast_zero, zero_add, hn]
  decide

/-- C11 (access counting), as the source behaves: for every state and address `a`, whenever
`access_memory(a)` returns (cache hit, page hit, disk hit or miss alike) every counter other
than that of `a` is unchanged and the counter of `a` is the `int` increment of its old
value; when the old value is an `int` below `INT_MAX` that is exactly one more, and then no
counter is smaller than before.  After construction every counter is 0, so a first access
takes it to 1.  With capacities at least 1 the call returns. -/
theorem C11_access_counting (s : MemorySimulator) (a : String) :
    (∀ lab s1, access_memory s a = .ok (lab, s1) →
      s1.access_counts a = wrap_int (s.access_counts a + 1) ∧
      (∀ b, b ≠ a → s1.access_counts b = s.access_counts b) ∧
      (IsInt (s.access_counts a) → s.access_counts a < 2147483647 →
        s1.access_counts a = s.access_counts a + 1 ∧
        ∀ b, s.access_counts b ≤ s1.access_counts b)) ∧
    (PosCaps s → ∃ lab s1, access_memory s a = .ok (lab, s1)) ∧
    (∀ c_size p_size d_size s0, MemorySimulator.init c_size p_size d_size = .ok s0 →
      IsInt c_size → IsInt p_size → ∀ b, s0.access_counts b = 0) := by
  refine ⟨?_, ?_, ?_⟩
  · intro lab s1 h
    rw [access_memory_counts s a lab s1 h]
    refine ⟨by simp [bump], fun b hb => by simp [bump, hb], fun hr hlt => ?_⟩
    have hw : wrap_int (s.access_counts a + 1) = s.access_counts a + 1 :=
      wrap_int_of_isInt ⟨by have := hr.1; omega, by omega⟩
    refine ⟨by simp [bump, hw], fun b => ?_⟩
    unfold bump
    split
    · rename_i hb
      rw [hb, hw]
      omega
    · exact le_refl _
  · intro hp
    obtain ⟨s1, hok, _⟩ := access_memory_sound s a hp
    exact ⟨_, s1, hok⟩
  · intro c_size p_size d_size s0 h hc hp b
    rw [init_eq c_size p_size d_size hc hp] at h
    injection h with h
    rw [← h]
    rfl

theorem C11_access_counting_witness :
    PosCaps counted_simulator ∧ IsInt (counted_simulator.access_counts "p") ∧
      counted_simulator.access_counts "p" < 2147483647 ∧
      (∃ lab s1, access_memory counted_simulator "p" = .ok (lab, s1) ∧
        s1.access_counts "p" = counted_simulator.access_counts "p" + 1 ∧
        s1.access_counts "b" = counted_simulator.access_counts "b" ∧
        ∀ b, counted_simulator.access_counts b ≤ s1.access_counts b) ∧
      ∀ s0, MemorySimulator.init 1 2 3 = .ok s0 → s0.access_counts "A0" = 0 := by
  have h := C11_access_counting counted_simulator "p"
  obtain ⟨lab, s1, hok⟩ := h.2.1 (by decide)
  have h3 := (h.1 lab s1 hok).2.2 (by decide) (by decide)
  exact ⟨by decide, by decide, by decide,
    ⟨lab, s1, hok, h3.1, (h.1 lab s1 hok).2.1 "b" (by decide), h3.2⟩,
    fun s0 h0 => h.2.2 1 2 3 s0 h0 (by decide) (by decide) "A0"⟩

theorem C11_access_counting_counterexample :
    (boot_and_access 1 2 3 (List.replicate 2147483647 "A0")).map
        (fun s => s.access_counts "A0") = .ok 2147483647 ∧
      (boot_and_access 1 2 3 (List.replicate (2147483647 + 1) "A0")).map
        (fun s => s.access_counts "A0") = .ok (-2147483648) ∧
      (access_memory saturated_simulator "b").map
        (fun r => (r.1, saturated_simulator.access_counts "b", r.2.access_counts "b")) =
          .ok ("cache", 2147483647, -2147483648) :=
  ⟨hits_count_below 2147483647 2147483647 rfl (le_refl _),
    hits_count_wrap 2147483647 rfl, by decide⟩

/-- C12 (cache hit has no tier effect): for every state and address `a` that is in cache,
`access_memory(a)` returns "cache" and the state it leaves differs from the state before
only in the counter of `a` (its `int` increment): cache, page and disk are the same lists. -/
theorem C12_cache_hit_frame (s : MemorySimulator) (a : String) (h : a ∈ s.cache) :
    ∃ s1, access_memory s a = .ok ("cache", s1) ∧
      s1.cache = s.cache ∧ s1.page = s.page ∧ s1.disk = s.disk ∧
      s1.access_counts a = wrap_int (s.access_counts a + 1) ∧
      (∀ b, b ≠ a → s1.access_counts b = s.access_counts b) ∧
      s1.cache_size = s.cache_size ∧ s1.page_size = s.page_size ∧
      s1.disk_size = s.disk_size ∧ s1.processes = s.processes ∧
      s1.current_time = s.current_time :=
  ⟨_, access_memory_cache s a h, rfl, rfl, rfl, by simp [bump],
    fun b hb => by simp [bump, hb], rfl, rfl, rfl, rfl, rfl⟩

theorem C12_cache_hit_frame_witness :
    "b" ∈ counted_simulator.cache ∧
      ∃ s1, access_memory counted_simulator "b" = .ok ("cache", s1) ∧
        s1.cache = counted_simulator.cache ∧ s1.page = counted_simulator.page ∧
        s1.disk = counted_simulator.disk ∧
        s1.access_counts "b" = wrap_int (counted_simulator.access_counts "b" + 1) ∧
        (∀ b, b ≠ "b" → s1.access_counts b = counted_simulator.access_counts b) ∧
        s1.cache_size = counted_simulator.cache_size ∧
        s1.page_size = counted_simulator.page_size ∧
        s1.disk_size = counted_simulator.disk_size ∧
        s1.processes = counted_simulator.processes ∧
        s1.current_time = counted_simulator.current_time :=
  ⟨by decide, C12_cache_hit_frame counted_simulator "b" (by decide)⟩

/-! ## Clock and bookkeeping -/

theorem move_to_cache_meta (s t : MemorySimulator) (a : String)
    (h : move_to_cache s a = .ok t) :
    t.current_time = s.current_time ∧ t.processes = s.processes := by
  unfold move_to_cache at h
  dsimp only at h
  split_ifs at h
  · split at h
    · exact absurd h (by simp)
    · simp only [Except.ok.injEq] at h
      rw [← h]
      exact ⟨rfl, rfl⟩
  · simp only [Except.ok.injEq] at h
    rw [← h]
    exact ⟨rfl, rfl⟩

theorem move_to_page_meta (s t : MemorySimulator) (a : String)
    (h : move_to_page s a = .ok t) :
    t.current_time = s.current_time ∧ t.processes = s.processes := by
  unfold move_to_page at h
  dsimp only at h
  split_ifs at h
  · split at h
    · exact absurd h (by simp)
    · simp only [Except.ok.injEq] at h
      rw [← h]
      exact ⟨rfl, rfl⟩
  · simp only [Except.ok.injEq] at h
    rw [← h]
    exact ⟨rfl, rfl⟩

theorem drop_oldest_meta (s t : MemorySimulator) (h : drop_oldest s = .ok t) :
    t.current_time = s.current_time ∧ t.processes = s.processes := by
  unfold drop_oldest at h
  split_ifs at h
  · split at h
    · exact absurd h (by simp)
    · simp only [Except.ok.injEq] at h
      rw [← h]
      exact ⟨rfl, rfl⟩
  · simp only [Except.ok.injEq] at h
    rw [← h]
    exact ⟨rfl, rfl⟩

/-- An access changes neither the clock nor the process vector. -/
theorem access_memory_meta (s : MemorySimulator) (a lab : String) (s1 : MemorySimulator)
    (h : access_memory s a = .ok (lab, s1)) :
    s1.current_time = s.current_time ∧ s1.processes = s.processes := by
  unfold access_memory at h
  dsimp only at h
  split_ifs at h with h1 h2 h3
  · simp only [Except.ok.injEq, Prod.mk.injEq] at h
    rw [← h.2]
    exact ⟨rfl, rfl⟩
  · cases hm : move_to_cache { s with access_counts := bump s.access_counts a } a with
    | error e => rw [hm] at h; simp [Except.bind] at h
    | ok t =>
      rw [hm] at h
      simp only [Except.bind, Except.ok.injEq, Prod.mk.injEq] at h
      rw [← h.2]
      have e := move_to_cache_meta _ t a hm
      exact e
  · cases hm : move_to_page { s with access_counts := bump s.access_counts a } a with
    | error e => rw [hm] at h; simp [Except.bind] at h
    | ok t =>
      rw [hm] at h
      simp only [Except.bind] at h
      cases hm2 : move_to_cache t a with
      | error e => rw [hm2] at h; simp at h
      | ok t2 =>
        rw [hm2] at h
        simp only [Except.ok.injEq, Prod.mk.injEq] at h
        rw [← h.2]
        have e1 := move_to_page_meta _ t a hm
        have e2 := move_to_cache_meta t t2 a hm2
        exact ⟨e2.1.trans e1.1, e2.2.trans e1.2⟩
  · cases hm0 : drop_oldest { s with access_counts := bump s.access_counts a } with
    | error e => rw [hm0] at h; simp [Except.bind] at h
    | ok t0 =>
      rw [hm0] at h
      simp only [Except.bind] at h
      cases hm : move_to_page { t0 with disk := t0.disk ++ [a] } a with
      | error e => rw [hm] at h; simp at h
      | ok t =>
        rw [hm] at h
        simp only at h
        cases hm2 : move_to_cache t a with
        | error e => rw [hm2] at h; simp at h
        | ok t2 =>
          rw [hm2] at h
          simp only [Except.ok.injEq, Prod.mk.injEq] at h
          rw [← h.2]
          have e0 := drop_oldest_meta _ t0 hm0
          have e1 := move_to_page_meta _ t a hm
          have e2 := move_to_cache_meta t t2 a hm2
          exact ⟨e2.1.trans (e1.1.trans e0.1), e2.2.trans (e1.2.trans e0.2)⟩

theorem sum_latencies_append (p q : Process) (m : MemoryAccess)
    (h : q.memory_accesses = p.memory_accesses ++ [m]) :
    sum_latencies q = sum_latencies p + m.access_time := by
  simp [sum_latencies, h]

theorem latency_bounds (lab : String) : 1 ≤ latency lab ∧ latency lab ≤ 100 := by
  unfold latency
  split
  · decide
  · split <;> decide

/-- The inner loop leaves identity, arrival time, addresses and start time alone. -/
theorem run_addresses_same (addrs : List String) : ∀ (s : MemorySimulator) (p : Process)
    (s1 : MemorySimulator) (p1 : Process), run_addresses s p addrs = .ok (s1, p1) →
    SameProcess p p1 ∧ p1.start_time = p.start_time := by
  induction addrs with
  | nil =>
    intro s p s1 p1 h
    simp only [run_addresses, Except.ok.injEq, Prod.mk.injEq] at h
    rw [← h.2]
    exact ⟨⟨rfl, rfl, rfl⟩, rfl⟩
  | cons a as ih =>
    intro s p s1 p1 h
    simp only [run_addresses] at h
    cases hm : access_memory s a with
    | error e => rw [hm] at h; simp [Except.bind] at h
    | ok r =>
      obtain ⟨lab, t⟩ := r
      rw [hm] at h
      simp only [Except.bind] at h
      have e := ih _ _ s1 p1 h
      exact e

/-- While the clock and the execution time stay within `int`, the inner loop advances both
by the sum of the latencies it records. -/
theorem run_addresses_clock (addrs : List String) : ∀ (s : MemorySimulator) (p : Process)
    (s1 : MemorySimulator) (p1 : Process), run_addresses s p addrs = .ok (s1, p1) →
    0 ≤ s.current_time → s.current_time + 100 * addrs.length ≤ 2147483647 →
    0 ≤ p.total_execution_time → p.total_execution_time + 100 * addrs.length ≤ 2147483647 →
    s1.current_time = s.current_time + (sum_latencies p1 - sum_latencies p) ∧
      p1.total_execution_time =
        p.total_execution_time + (sum_latencies p1 - sum_latencies p) ∧
      0 ≤ sum_latencies p1 - sum_latencies p ∧
      sum_latencies p1 - sum_latencies p ≤ 100 * addrs.length := by
  induction addrs with
  | nil =>
    intro s p s1 p1 h _ _ _ _
    simp only [run_addresses, Except.ok.injEq, Prod.mk.injEq] at h
    rw [← h.1, ← h.2]
    simp
  | cons a as ih =>
    intro s p s1 p1 h hc0 hc1 ht0 ht1
    simp only [run_addresses] at h
    cases hm : access_memory s a with
    | error e => rw [hm] at h; simp [Except.bind] at h
    | ok r =>
      obtain ⟨lab, t⟩ := r
      rw [hm] at h
      simp only [Except.bind] at h
      have hlat := latency_bounds lab
      have ht := (access_memory_meta s a lab t hm).1
      simp only [List.length_cons, Nat.cast_add, Nat.cast_one] at hc1 ht1
      have hw1 : wrap_int (t.current_time + latency lab) = s.current_time + latency lab := by
        rw [ht]
        exact wrap_int_of_isInt ⟨by omega, by omega⟩
      have hw2 : wrap_int (p.total_execution_time + latency lab) =
          p.total_execution_time + latency lab :=
        wrap_int_of_isInt ⟨by omega, by omega⟩
      rw [hw1, hw2] at h
      have hsum := sum_latencies_append p
        { p with
            memory_accesses := p.memory_accesses ++ [⟨a, latency lab, lab⟩],
            total_execution_time := p.total_execution_time + latency lab }
        ⟨a, latency lab, lab⟩ rfl
      obtain ⟨hclock, htotal, hlo, hhi⟩ := ih _ _ s1 p1 h (by dsimp only; omega)
        (by dsimp only; omega) (by dsimp only; omega) (by dsimp only; omega)
      dsimp only at hclock htotal hsum hlo hhi
      simp only [List.length_cons, Nat.cast_add, Nat.cast_one]
      rw [hsum] at hclock htotal hlo hhi
      refine ⟨by omega, by omega, by omega, by omega⟩

theorem run_process_clock (s : MemorySimulator) (p : Process) (s1 : MemorySimulator)
    (p1 : Process) (hreg : Registered p) (h : run_process s p = .ok (s1, p1))
    (hc0 : 0 ≤ s.current_time)
    (hmax : max p.arrival_time s.current_time + 100 * p.addresses_to_access.length ≤
      2147483647) :
    SameProcess p p1 ∧ p1.start_time = max p.arrival_time s.current_time ∧
      p1.total_execution_time = sum_latencies p1 ∧
      p1.end_time = p1.start_time + p1.total_execution_time ∧
      s1.current_time = p1.end_time ∧ 0 ≤ p1.end_time ∧
      p1.end_time ≤
        max p.arrival_time s.current_time + 100 * p.addresses_to_access.length := by
  unfold run_process at h
  dsimp only at h
  cases hm : run_addresses
      (if s.current_time < p.arrival_time then { s with current_time := p.arrival_time } else s)
      { p with start_time := (if s.current_time < p.arrival_time then
          { s with current_time := p.arrival_time } else s).current_time }
      p.addresses_to_access with
  | error e => rw [hm] at h; simp [Except.bind] at h
  | ok r =>
    obtain ⟨t, q⟩ := r
    rw [hm] at h
    simp only [Except.bind, Except.ok.injEq, Prod.mk.injEq] at h
    have hclk : (if s.current_time < p.arrival_time then
        { s with current_time := p.arrival_time } else s).current_time =
        max p.arrival_time s.current_time := by
      split
      · rename_i hlt; simp only []; rw [max_eq_left (le_of_lt hlt)]
      · rename_i hge; rw [max_eq_right (not_lt.mp hge)]
    have hm0 : 0 ≤ max p.arrival_time s.current_time := le_trans hc0 (le_max_right _ _)
    obtain ⟨hsame, hstart⟩ := run_addresses_same _ _ _ t q hm
    obtain ⟨hclock, htotal, hlo, hhi⟩ := run_addresses_clock _ _ _ t q hm
      (by rw [hclk]; exact hm0) (by rw [hclk]; exact hmax)
      (by dsimp only; rw [hreg.2]) (by dsimp only; rw [hreg.2]; omega)
    have hsum0 : sum_latencies { p with start_time := (if s.current_time < p.arrival_time then
        { s with current_time := p.arrival_time } else s).current_time } = 0 := by
      simp [sum_latencies, hreg.1]
    dsimp only at hsame hstart hclock htotal hlo hhi
    rw [hsum0] at hclock htotal hlo hhi
    rw [hreg.2] at htotal
    rw [hclk] at hstart hclock
    rw [← h.1, ← h.2]
    refine ⟨hsame, hstart, ?_, ?_, rfl, ?_, ?_⟩
    · show q.total_execution_time = sum_latencies q
      omega
    · show t.current_time = q.start_time + q.total_execution_time
      omega
    · show 0 ≤ t.current_time
      omega
    · show t.current_time ≤ _
      omega

theorem total_addresses_cons (p : Process) (ps : List Process) :
    total_addresses (p :: ps) = p.addresses_to_access.length + total_addresses ps := by
  simp [total_addresses]

theorem total_addresses_nonneg (ps : List Process) : 0 ≤ total_addresses ps := by
  induction ps with
  | nil => simp [total_addresses]
  | cons p ps ih => rw [total_addresses_cons]; omega

theorem total_addresses_perm {l1 l2 : List Process} (h : l1.Perm l2) :
    total_addresses l1 = total_addresses l2 := by
  unfold total_addresses
  exact (h.map _).sum_eq

/-- While the clock stays within `int`, the outer loop chains the processes on one clock. -/
theorem run_processes_clock (A : Int) (ps : List Process) : ∀ (s s1 : MemorySimulator)
    (ps1 : List Process), (∀ p ∈ ps, Registered p) →
    (∀ p ∈ ps, p.arrival_time ≤ A) → 0 ≤ s.current_time →
    max A s.current_time + 100 * total_addresses ps ≤ 2147483647 →
    run_processes s ps = .ok (s1, ps1) →
    ClockChain s.current_time ps1 ∧ s1.current_time = final_end s.current_time ps1 ∧
      List.Forall₂ SameProcess ps ps1 := by
  induction ps with
  | nil =>
    intro s s1 ps1 _ _ _ _ h
    simp only [run_processes, Except.ok.injEq, Prod.mk.injEq] at h
    rw [← h.1, ← h.2]
    exact ⟨trivial, rfl, List.Forall₂.nil⟩
  | cons p ps ih =>
    intro s s1 ps1 hreg harr hc0 hmax h
    simp only [run_processes] at h
    cases hm : run_process s p with
    | error e => rw [hm] at h; simp [Except.bind] at h
    | ok r =>
      obtain ⟨t, q⟩ := r
      rw [hm] at h
      simp only [Except.bind] at h
      cases hm2 : run_processes t ps with
      | error e => rw [hm2] at h; simp at h
      | ok r2 =>
        obtain ⟨t2, qs⟩ := r2
        rw [hm2] at h
        simp only [Except.ok.injEq, Prod.mk.injEq] at h
        have hp := harr p (List.mem_cons_self _ _)
        have hnn := total_addresses_nonneg ps
        rw [total_addresses_cons] at hmax
        have hmaxp : max p.arrival_time s.current_time ≤ max A s.current_time :=
          max_le_max_right _ hp
        obtain ⟨hsame, hstart, htotal, hend, hclk, he0, hehi⟩ :=
          run_process_clock s p t q (hreg p (List.mem_cons_self _ _)) hm hc0 (by omega)
        have hA : max A t.current_time ≤
            max A s.current_time + 100 * p.addresses_to_access.length := by
          rw [hclk]
          apply max_le
          · have := le_max_left A s.current_time
            omega
          · omega
        obtain ⟨hchain, hfinal, hall⟩ :=
          ih t t2 qs (fun x hx => hreg x (List.mem_cons_of_mem _ hx))
            (fun x hx => harr x (List.mem_cons_of_mem _ hx)) (by rw [hclk]; exact he0)
            (by omega) hm2
        rw [← h.1, ← h.2]
        rw [hclk] at hchain hfinal
        exact ⟨⟨by rw [hsame.2.1]; exact hstart, htotal, hend, hchain⟩, hfinal,
          List.Forall₂.cons hsame hall⟩

/-! ## The sort -/

theorem isStdSort_stable_sort : IsStdSort stable_sort := by
  intro l
  haveI : IsTotal Process (fun a b => a.arrival_time ≤ b.arrival_time) :=
    ⟨fun a b => le_total a.arrival_time b.arrival_time⟩
  haveI : IsTrans Process (fun a b => a.arrival_time ≤ b.arrival_time) :=
    ⟨fun _ _ _ h1 h2 => le_trans h1 h2⟩
  exact ⟨List.perm_insertionSort _ l, List.sorted_insertionSort _ l⟩

/-- Two processes with different arrival times are put in ascending order by every sort
that meets the contract of `std::sort`. -/
theorem std_sort_pair (sort : List Process → List Process) (h : IsStdSort sort)
    (p q : Process) (hlt : q.arrival_time < p.arrival_time) : sort [p, q] = [q, p] := by
  obtain ⟨hperm, hsorted⟩ := h [p, q]
  have hlen := hperm.length_eq
  have hne : p ≠ q := by
    intro he
    rw [he] at hlt
    exact lt_irrefl _ hlt
  match hs : sort [p, q], hlen with
  | [x, y], _ =>
    rw [hs] at hperm hsorted
    have hx : x ∈ [p, q] := hperm.subset (by simp)
    have hy : y ∈ [p, q] := hperm.subset (by simp)
    have hp : p ∈ [x, y] := hperm.symm.subset (by simp)
    have hq : q ∈ [x, y] := hperm.symm.subset (by simp)
    have hxy : x.arrival_time ≤ y.arrival_time := by
      simpa using hsorted
    simp only [List.mem_cons, List.mem_singleton, List.not_mem_nil, or_false] at hx hy hp hq
    rcases hx with hx | hx <;> rcases hy with hy | hy
    · subst hx; subst hy
      rcases hq with hq | hq <;> exact absurd hq.symm hne
    · subst hx; subst hy
      omega
    · subst hx; subst hy
      rfl
    · subst hx; subst hy
      rcases hp with hp | hp <;> exact absurd hp hne

/-- C13 (FCFS clock), as the source behaves: let `sort` meet the contract of `std::sort`.
For every state whose clock is 0 and whose processes are as registered, with no arrival time
above `A ≥ 0` and `A + 100 * (number of addresses to access) ≤ INT_MAX` (so that the `int`
clock cannot overflow), a `run_simulation` that returns leaves the processes `p_1 .. p_n` of
the run order with `start_time = max(arrival_time, end of the previous process)` (0 before
the first), `total_execution_time` the sum of the latencies of the recorded accesses,
`end_time = start_time + total_execution_time`, and the clock at the end time of the last
process (0 when there is none); with capacities at least 1 it returns.  In the scenario with
capacities (1, 2, 3), P1 registered first (arrival 5, the miss "X") and P2 second (arrival
1, the cache hit "A0"), the final clock is 105, P2 runs first with start 1 and end 2, and P1
has start 5 and end 105. -/
theorem C13_fcfs_clock (sort : List Process → List Process) (hsort : IsStdSort sort) :
    (∀ (s : MemorySimulator) (A : Int), s.current_time = 0 →
      (∀ p ∈ s.processes, Registered p) → ClockInRange A s.processes →
      (∀ s1, run_simulation sort s = .ok s1 →
        ClockChain 0 s1.processes ∧ s1.current_time = final_end 0 s1.processes ∧
          List.Forall₂ SameProcess (sort s.processes) s1.processes) ∧
      (PosCaps s → ∃ s1, run_simulation sort s = .ok s1)) ∧
    (∀ a1 b1 a2 b2 : Int,
      ((MemorySimulator.init 1 2 3).bind fun s0 =>
        run_simulation sort
          (add_process (add_process s0 5 ["X"] a1 b1) 1 ["A0"] a2 b2)).map clock_report =
        .ok (105, [(2, 1, 2), (1, 5, 105)])) := by
  refine ⟨?_, ?_⟩
  · intro s A hclock hreg hrange
    refine ⟨?_, ?_⟩
    · intro s1 h
      unfold run_simulation at h
      dsimp only at h
      cases hm : run_processes { s with processes := sort s.processes } (sort s.processes) with
      | error e => rw [hm] at h; simp [Except.bind] at h
      | ok r =>
        obtain ⟨t, qs⟩ := r
        rw [hm] at h
        simp only [Except.bind, Except.ok.injEq] at h
        have hperm := (hsort s.processes).1
        have hreg1 : ∀ p ∈ sort s.processes, Registered p :=
          fun p hp => hreg p (hperm.subset hp)
        have harr1 : ∀ p ∈ sort s.processes, p.arrival_time ≤ A :=
          fun p hp => hrange.1 p (hperm.subset hp)
        have htot := total_addresses_perm hperm
        have hA := hrange.2.1
        have hB := hrange.2.2
        obtain ⟨hchain, hfinal, hall⟩ := run_processes_clock A _
          { s with processes := sort s.processes } t qs hreg1 harr1
          (by dsimp only; omega)
          (by dsimp only; rw [hclock, max_eq_left hA, htot]; exact hB) hm
        dsimp only at hchain hfinal
        rw [hclock] at hchain hfinal
        rw [← h]
        exact ⟨hchain, hfinal, hall⟩
    · intro hp
      obtain ⟨t, qs, hrun, _⟩ := run_processes_total (sort s.processes)
        { s with processes := sort s.processes } hp
      refine ⟨{ t with processes := qs }, ?_⟩
      unfold run_simulation
      dsimp only
      rw [hrun]
      rfl
  · intro a1 b1 a2 b2
    rw [init_eq 1 2 3 (by decide) (by decide)]
    simp only [Except.bind]
    unfold run_simulation
    dsimp only
    have hprocs : (add_process (add_process (init_after 1 2 3 (3 : Int).toNat) 5 ["X"] a1 b1)
        1 ["A0"] a2 b2).processes =
        [{ id := 1, arrival_time := 5, addresses_to_access := ["X"], memory_accesses := [],
           total_execution_time := 0, start_time := a1, end_time := b1 },
         { id := 2, arrival_time := 1, addresses_to_access := ["A0"], memory_accesses := [],
           total_execution_time := 0, start_time := a2, end_time := b2 }] := rfl
    rw [hprocs, std_sort_pair sort hsort _ _ (by show (1 : Int) < 5; decide)]
    rfl

theorem C13_fcfs_clock_witness :
    IsStdSort stable_sort ∧ fcfs_scenario.current_time = 0 ∧
      (∀ p ∈ fcfs_scenario.processes, Registered p) ∧
      ClockInRange 5 fcfs_scenario.processes ∧ PosCaps fcfs_scenario ∧
      ∃ s1, run_simulation stable_sort fcfs_scenario = .ok s1 ∧
        ClockChain 0 s1.processes ∧ s1.current_time = final_end 0 s1.processes ∧
        List.Forall₂ SameProcess (stable_sort fcfs_scenario.processes) s1.processes := by
  have h := (C13_fcfs_clock stable_sort isStdSort_stable_sort).1 fcfs_scenario 5 rfl
    (by decide) (by decide)
  obtain ⟨s1, hok⟩ := h.2 (by decide)
  exact ⟨isStdSort_stable_sort, rfl, by decide, by decide, by decide, s1, hok, h.1 s1 hok⟩

theorem C13_fcfs_clock_counterexample :
    ((MemorySimulator.init 1 2 3).bind fun s0 =>
        run_simulation stable_sort (add_process s0 2147483647 ["X"] 0 0)).map
      (fun s1 => (s1.current_time,
        s1.processes.map fun p =>
          (p.arrival_time, p.start_time, p.total_execution_time, p.end_time,
            decide (p.end_time = p.start_time + p.total_execution_time)))) =
      .ok (-2147483549, [(2147483647, 2147483647, 100, -2147483549, false)]) := by
  rfl

/-- On seventeen processes the heapsort of the introsort loop is never reached: whatever it
is, the library sort leaves the registration order 1 .. 17 of `ties17` as shown. -/
theorem std_sort_ties17 (heap_sort : List Process → List Process) :
    (std_sort heap_sort ties17.processes).map (fun p => p.id) =
      [9, 17, 16, 15, 14, 13, 12, 11, 10, 1, 8, 7, 6, 5, 4, 3, 2] := by
  rfl

/-- C15 (negative capacities), as the source behaves: the constructor validates nothing.
For every triple of `int` capacities, negative ones included, construction completes and
returns a simulator holding the capacities as given; a negative `disk_size` seeds no address
at all, a negative `page_size` leaves page and cache empty and a negative `cache_size`
leaves cache empty. -/
theorem C15_negative_capacities_accepted (c_size p_size d_size : Int) (hc : IsInt c_size)
    (hp : IsInt p_size) :
    ∃ s, MemorySimulator.init c_size p_size d_size = .ok s ∧
      s.cache_size = c_size ∧ s.page_size = p_size ∧ s.disk_size = d_size ∧
      (c_size < 0 → s.cache = []) ∧
      (p_size < 0 → s.cache = [] ∧ s.page = []) ∧
      (d_size < 0 → s.cache = [] ∧ s.page = [] ∧ s.disk = []) := by
  refine ⟨_, init_eq c_size p_size d_size hc hp, rfl, rfl, rfl, ?_, ?_, ?_⟩
  · intro h
    simp only [init_after, List.map_eq_nil_iff, List.filter_eq_nil_iff, decide_eq_true_eq]
    intro i _ hi
    omega
  · intro h
    simp only [init_after, List.map_eq_nil_iff, List.filter_eq_nil_iff, decide_eq_true_eq]
    exact ⟨fun i _ hi => by omega, fun i _ hi => by omega⟩
  · intro h
    have h0 : d_size.toNat = 0 := by omega
    rw [h0]
    exact ⟨rfl, rfl, rfl⟩

theorem C15_negative_capacities_accepted_witness :
    IsInt (-1) ∧ IsInt 2 ∧
      ∃ s, MemorySimulator.init (-1) 2 3 = .ok s ∧
        s.cache_size = -1 ∧ s.page_size = 2 ∧ s.disk_size = 3 ∧
        ((-1 : Int) < 0 → s.cache = []) ∧
        ((2 : Int) < 0 → s.cache = [] ∧ s.page = []) ∧
        ((3 : Int) < 0 → s.cache = [] ∧ s.page = [] ∧ s.disk = []) :=
  ⟨by decide, by decide,
    C15_negative_capacities_accepted (-1) 2 3 (by decide) (by decide)⟩

theorem C15_negative_capacities_counterexample :
    (MemorySimulator.init (-1) 2 3).map tiers = .ok ([], ["A0", "A1"], ["A2"]) ∧
      ((MemorySimulator.init (-1) 2 3).bind fun s => access_memory s "A0").map
          (fun r => (r.1, tiers r.2)) = .ok ("page", (["A0"], ["A1"], ["A2"])) ∧
      (MemorySimulator.init 1 (-2) 3).map tiers = .ok ([], [], ["A0", "A1", "A2"]) ∧
      (MemorySimulator.init 1 2 (-3)).map tiers = .ok ([], [], []) := by
  decide

/-- C16 (empty address list), evaluation of the source: a process registered with an empty
address list has no recorded access after `run_simulation`, and `print_stats` evaluates its
average with the divisor `p.memory_accesses.size()` equal to 0; nothing reports the empty
case separately. -/
theorem C16_empty_process_divides_by_zero :
    ((MemorySimulator.init 1 2 3).bind fun s0 =>
        run_simulation stable_sort (add_process s0 0 [] 0 0)).map average_operands =
      .ok [(0, 0)] ∧
    ((MemorySimulator.init 1 2 3).bind fun s0 =>
        run_simulation stable_sort
          (add_process (add_process s0 0 ["A0", "X"] 0 0) 3 [] 0 0)).map average_operands =
      .ok [(101, 2), (0, 0)] := by
  decide

/-- C18 (frequency, not recency): there are capacities and an access sequence after which
an eviction from cache removes an address that was accessed more recently than an address
that stays in cache.  With capacities (2, 3, 4) and the accesses A0, A0, A1 the cache is
`[A0, A1]`, A0 having counter 2 and last access at position 1, A1 counter 1 and last access
at position 2; the page hit on A2 that follows evicts A1 to page and keeps A0. -/
theorem C18_frequency_not_recency :
    ∃ (c_size p_size d_size : Int) (addrs : List String) (next victim kept : String),
      PosCap c_size ∧ PosCap p_size ∧ PosCap d_size ∧
      (∃ s, boot_and_access c_size p_size d_size addrs = .ok s ∧
        victim ∈ s.cache ∧ kept ∈ s.cache ∧
        s.access_counts victim < s.access_counts kept) ∧
      (∃ i j, last_access addrs kept = some i ∧ last_access addrs victim = some j ∧ i < j) ∧
      (∃ s1, boot_and_access c_size p_size d_size (addrs ++ [next]) = .ok s1 ∧
        kept ∈ s1.cache ∧ victim ∉ s1.cache ∧ victim ∈ s1.page) ∧
      (boot_and_access c_size p_size d_size addrs).map tiers =
        .ok (["A0", "A1"], ["A2"], ["A3"]) ∧
      (boot_and_access c_size p_size d_size (addrs ++ [next])).map tiers =
        .ok (["A0", "A2"], ["A1"], ["A3"]) := by
  refine ⟨2, 3, 4, ["A0", "A0", "A1"], "A2", "A1", "A0", by decide, by decide, by decide,
    ?_, ⟨1, 2, by decide, by decide, by decide⟩, ?_, by decide, by decide⟩
  · obtain ⟨s, hs, _⟩ := boot_and_access_sound 2 3 4 (by decide) (by decide) (by decide)
      ["A0", "A0", "A1"]
    have e1 : (boot_and_access 2 3 4 ["A0", "A0", "A1"]).map
        (fun s => (tiers s, s.access_counts "A1", s.access_counts "A0")) =
        .ok ((["A0", "A1"], ["A2"], ["A3"]), 1, 2) := by decide
    rw [hs] at e1
    simp only [Except.map, Except.ok.injEq, Prod.mk.injEq, tiers] at e1
    refine ⟨s, hs, ?_, ?_, ?_⟩
    · rw [e1.1.1]; decide
    · rw [e1.1.1]; decide
    · rw [e1.2.1, e1.2.2]; decide
  · obtain ⟨s, hs, _⟩ := boot_and_access_sound 2 3 4 (by decide) (by decide) (by decide)
      (["A0", "A0", "A1"] ++ ["A2"])
    have e1 : (boot_and_access 2 3 4 (["A0", "A0", "A1"] ++ ["A2"])).map tiers =
        .ok (["A0", "A2"], ["A1"], ["A3"]) := by decide
    rw [hs] at e1
    simp only [Except.map, Except.ok.injEq, Prod.mk.injEq, tiers] at e1
    refine ⟨s, hs, ?_, ?_, ?_⟩
    · rw [e1.1]; decide
    · rw [e1.1]; decide
    · rw [e1.2.1]; decide


/-! ## Faults -/

theorem move_to_cache_error_iff (s : MemorySimulator) (a : String) :
    (∃ f, move_to_cache s a = .error f) ↔
      (toSizeT s.cache_size ≤ s.cache.length ∧ s.cache = []) := by
  unfold move_to_cache
  dsimp only
  by_cases hfull : toSizeT s.cache_size ≤ s.cache.length
  · rw [if_pos hfull]
    cases hc : s.cache with
    | nil =>
      rw [hc] at hfull
      simp only [List.length_nil, Nat.le_zero_eq] at hfull
      simp [min_element, hfull]
    | cons x xs => simp [min_element]
  · rw [if_neg hfull]
    simp [hfull]

theorem move_to_page_error_iff (s : MemorySimulator) (a : String) :
    (∃ f, move_to_page s a = .error f) ↔
      (toSizeT s.page_size ≤ s.page.length ∧ s.page = []) := by
  unfold move_to_page
  dsimp only
  by_cases hfull : toSizeT s.page_size ≤ s.page.length
  · rw [if_pos hfull]
    cases hc : s.page with
    | nil =>
      rw [hc] at hfull
      simp only [List.length_nil, Nat.le_zero_eq] at hfull
      simp [min_element, hfull]
    | cons x xs => simp [min_element]
  · rw [if_neg hfull]
    simp [hfull]

theorem drop_oldest_error_iff (s : MemorySimulator) :
    (∃ f, drop_oldest s = .error f) ↔
      (toSizeT s.disk_size ≤ s.disk.length ∧ s.disk = []) := by
  unfold drop_oldest
  by_cases hfull : toSizeT s.disk_size ≤ s.disk.length
  · rw [if_pos hfull]
    cases hc : s.disk with
    | nil =>
      rw [hc] at hfull
      simp only [List.length_nil, Nat.le_zero_eq] at hfull
      simp [hfull]
    | cons x xs => simp
  · rw [if_neg hfull]
    simp [hfull]

/-- C17 (no eviction from an empty tier): the embedding faults exactly where the source
selects a victim with `min_element` in an empty tier (`move_to_cache` on cache,
`move_to_page` on page) or runs `disk.erase(disk.begin())` on an empty disk.  With
capacities at least 1 none of these happens: in a state with such capacities a tier that
is at or above its capacity is non-empty, and construction followed by any finite sequence
of `access_memory` calls never faults. -/
theorem C17_no_empty_eviction (c_size p_size d_size : Int) (hc : PosCap c_size)
    (hp : PosCap p_size) (hd : PosCap d_size) (addrs : List String) :
    (∀ f, boot_and_access c_size p_size d_size addrs ≠ .error f) ∧
    (∀ (s : MemorySimulator) (a : String),
      ((∃ f, move_to_cache s a = .error f) ↔
        (toSizeT s.cache_size ≤ s.cache.length ∧ s.cache = [])) ∧
      ((∃ f, move_to_page s a = .error f) ↔
        (toSizeT s.page_size ≤ s.page.length ∧ s.page = [])) ∧
      ((∃ f, drop_oldest s = .error f) ↔
        (toSizeT s.disk_size ≤ s.disk.length ∧ s.disk = []))) ∧
    (∀ s : MemorySimulator, PosCaps s →
      (toSizeT s.cache_size ≤ s.cache.length → s.cache ≠ []) ∧
      (toSizeT s.page_size ≤ s.page.length → s.page ≠ []) ∧
      (toSizeT s.disk_size ≤ s.disk.length → s.disk ≠ [])) := by
  refine ⟨?_, ?_, ?_⟩
  · intro f hf
    obtain ⟨s, hok, _⟩ := boot_and_access_sound c_size p_size d_size hc hp hd addrs
    rw [hok] at hf
    exact absurd hf (by simp)
  · intro s a
    exact ⟨move_to_cache_error_iff s a, move_to_page_error_iff s a, drop_oldest_error_iff s⟩
  · intro s hpos
    exact ⟨ne_nil_of_full hpos.1 s.cache, ne_nil_of_full hpos.2.1 s.page,
      ne_nil_of_full hpos.2.2 s.disk⟩

theorem C17_no_empty_eviction_witness :
    PosCap 1 ∧ PosCaps full_simulator ∧
      toSizeT full_simulator.cache_size ≤ full_simulator.cache.length ∧
      toSizeT full_simulator.page_size ≤ full_simulator.page.length ∧
      toSizeT full_simulator.disk_size ≤ full_simulator.disk.length ∧
      (∀ f, boot_and_access 1 1 1 ["X", "Y", "Z", "A0"] ≠ .error f) ∧
      full_simulator.cache ≠ [] ∧ full_simulator.page ≠ [] ∧ full_simulator.disk ≠ [] := by
  have h := C17_no_empty_eviction 1 1 1 (by decide) (by decide) (by decide)
    ["X", "Y", "Z", "A0"]
  have h3 := h.2.2 full_simulator (by decide)
  exact ⟨by decide, by decide, by decide, by decide, by decide, h.1,
    h3.1 (by decide), h3.2.1 (by decide), h3.2.2 (by decide)⟩


/-! ## Closed form of the bootstrap -/

theorem filter_range_between (n lo hi : Nat) :
    (List.range n).filter (fun i => decide (lo ≤ i ∧ i < hi)) = List.Ico lo (min hi n) := by
  induction n with
  | zero => simp
  | succ k ih =>
    rw [List.range_succ, List.filter_append, ih]
    by_cases h1 : k < hi
    · have e1 : min hi k = k := by omega
      have e2 : min hi (k + 1) = k + 1 := by omega
      rw [e1, e2]
      by_cases h2 : lo ≤ k
      · rw [List.Ico.succ_top h2]
        simp [h1, h2]
      · rw [List.Ico.eq_nil_of_le (by omega), List.Ico.eq_nil_of_le (by omega)]
        simp [h2]
    · have e1 : min hi k = hi := by omega
      have e2 : min hi (k + 1) = hi := by omega
      rw [e1, e2]
      simp [h1]

theorem init_after_cache (c p d n : Nat) :
    (init_after c p d n).cache = (List.Ico 0 (min c (min p n))).map address_of := by
  have h : (List.range n).filter (fun (i : Nat) => decide ((i : Int) < (p : Int) ∧
      (i : Int) < (c : Int))) =
      (List.range n).filter (fun i => decide (0 ≤ i ∧ i < min c p)) := by
    apply List.filter_congr
    intro i _
    simp only [Nat.cast_lt, decide_eq_decide]
    omega
  show List.map address_of _ = _
  rw [h, filter_range_between]
  congr 2
  omega

theorem init_after_page (c p d n : Nat) :
    (init_after c p d n).page = (List.Ico (min c p) (min p n)).map address_of := by
  have h : (List.range n).filter (fun (i : Nat) => decide ((i : Int) < (p : Int) ∧
      ¬ (i : Int) < (c : Int))) =
      (List.range n).filter (fun i => decide (c ≤ i ∧ i < p)) := by
    apply List.filter_congr
    intro i _
    simp only [Nat.cast_lt, decide_eq_decide]
    omega
  show List.map address_of _ = _
  rw [h, filter_range_between]
  by_cases hcp : c ≤ p
  · rw [min_eq_left hcp]
  · rw [List.Ico.eq_nil_of_le (by omega), List.Ico.eq_nil_of_le (by omega)]

theorem init_after_disk (c p d n : Nat) :
    (init_after c p d n).disk = (List.Ico p n).map address_of := by
  have h : (List.range n).filter (fun (i : Nat) => decide (¬ (i : Int) < (p : Int))) =
      (List.range n).filter (fun i => decide (p ≤ i ∧ i < n)) := by
    apply List.filter_congr
    intro i hi
    have := List.mem_range.mp hi
    simp only [Nat.cast_lt, decide_eq_decide]
    omega
  show List.map address_of _ = _
  rw [h, filter_range_between, min_self]

/-- C19 (bootstrap closed form): for all capacities `c, p, d ≥ 0` (in the range of `int`)
the constructor returns the state with `cache = [A_i : 0 ≤ i < min(c, p, d)]`,
`page = [A_i : min(c, p) ≤ i < min(p, d)]` and `disk = [A_i : p ≤ i < d]`, each in
increasing index order, every access count 0 and clock 0.  It evicts nothing: before
iteration `n < d` the loop has reached a state in which the guards `page.size() >= page_size`
(evaluated when `n < p`) and `cache.size() >= cache_size` (evaluated when also `n < c`) are
false.  When `c ≤ p ≤ d` the tiers hold `c`, `p - c` and `d - p` addresses, so page is below
capacity when `c ≥ 1` and disk is below capacity when `p ≥ 1`. -/
theorem C19_bootstrap_closed_form (c p d : Nat) (hc : (c : Int) ≤ 2147483647)
    (hp : (p : Int) ≤ 2147483647) :
    ∃ s, MemorySimulator.init c p d = .ok s ∧
      s.cache = (List.Ico 0 (min c (min p d))).map address_of ∧
      s.page = (List.Ico (min c p) (min p d)).map address_of ∧
      s.disk = (List.Ico p d).map address_of ∧
      (∀ a, s.access_counts a = 0) ∧ s.current_time = 0 ∧
      (∀ n, n < d → ∃ sn,
        init_loop c p (init_after c p d 0) (List.range n) = .ok sn ∧
        (n < p → ¬ toSizeT sn.page_size ≤ sn.page.length) ∧
        (n < p → n < c → ¬ toSizeT sn.cache_size ≤ sn.cache.length)) ∧
      (c ≤ p → p ≤ d →
        s.cache.length = c ∧ s.page.length = p - c ∧ s.disk.length = d - p ∧
        (1 ≤ c → s.page.length < p) ∧ (1 ≤ p → s.disk.length < d)) := by
  have hic : IsInt (c : Int) := ⟨by omega, hc⟩
  have hip : IsInt (p : Int) := ⟨by omega, hp⟩
  have hinit := init_eq c p d hic hip
  rw [Int.toNat_natCast] at hinit
  refine ⟨_, hinit, init_after_cache c p d d, init_after_page c p d d,
    init_after_disk c p d d, fun _ => rfl, rfl, ?_, ?_⟩
  · intro n _
    refine ⟨_, init_loop_range c p d hic hip n, ?_, ?_⟩
    · intro hnp
      have hsz := toSizeT_of_nonneg (x := (p : Int)) (by omega) hp
      have hlen : (init_after c p d n).page.length ≤ n := by
        rw [init_after_page, List.length_map, List.Ico.length]
        omega
      show ¬ toSizeT (p : Int) ≤ _
      omega
    · intro hnp hnc
      have hsz := toSizeT_of_nonneg (x := (c : Int)) (by omega) hc
      have hlen : (init_after c p d n).cache.length ≤ n := by
        rw [init_after_cache, List.length_map, List.Ico.length]
        omega
      show ¬ toSizeT (c : Int) ≤ _
      omega
  · intro hcp hpd
    rw [init_after_cache, init_after_page, init_after_disk]
    simp only [List.length_map, List.Ico.length]
    exact ⟨by omega, by omega, trivial, fun h1 => by omega, fun h1 => by omega⟩

theorem C19_bootstrap_closed_form_witness :
    ((2 : Nat) : Int) ≤ 2147483647 ∧ ((3 : Nat) : Int) ≤ 2147483647 ∧
      ∃ s, MemorySimulator.init (2 : Nat) (3 : Nat) (5 : Nat) = .ok s ∧
        s.cache = (List.Ico 0 (min 2 (min 3 5))).map address_of ∧
        s.page = (List.Ico (min 2 3) (min 3 5)).map address_of ∧
        s.disk = (List.Ico 3 5).map address_of ∧
        (∀ a, s.access_counts a = 0) ∧ s.current_time = 0 ∧
        (∀ n, n < 5 → ∃ sn,
          init_loop (2 : Nat) (3 : Nat) (init_after (2 : Nat) (3 : Nat) (5 : Nat) 0)
            (List.range n) = .ok sn ∧
          (n < 3 → ¬ toSizeT sn.page_size ≤ sn.page.length) ∧
          (n < 3 → n < 2 → ¬ toSizeT sn.cache_size ≤ sn.cache.length)) ∧
        (2 ≤ 3 → 3 ≤ 5 →
          s.cache.length = 2 ∧ s.page.length = 3 - 2 ∧ s.disk.length = 5 - 3 ∧
          (1 ≤ 2 → s.page.length < 3) ∧ (1 ≤ 3 → s.disk.length < 5)) :=
  ⟨by decide, by decide, C19_bootstrap_closed_form 2 3 5 (by decide) (by decide)⟩


/-! ## The resident set -/

theorem resident_iff_count (s : MemorySimulator) (x : String) :
    Resident s x ↔ 0 < List.count x s.cache + List.count x s.page + List.count x s.disk := by
  unfold Resident
  rw [← List.count_pos_iff (a := x) (l := s.cache), ← List.count_pos_iff (a := x) (l := s.page),
    ← List.count_pos_iff (a := x) (l := s.disk)]
  omega

/-- The resident set after one access, in a state that satisfies both invariants. -/
theorem resident_after_access (s : MemorySimulator) (a : String) (hpos : PosCaps s)
    (hex : Exclusive s) (hcap : WithinCapacity s) :
    ∃ s1, access_memory s a = .ok (locate s a, s1) ∧
      ∀ x, Resident s1 x ↔
        (x = a ∨ (Resident s x ∧
          ¬ (Absent s a ∧ (s.disk.length : Int) = s.disk_size ∧ s.disk.head? = some x))) := by
  obtain ⟨s1, hok, _, _, _, _, _, hcount, _⟩ := access_memory_sound s a hpos
  refine ⟨s1, hok, ?_⟩
  intro x
  rw [resident_iff_count, resident_iff_count, hcount x]
  have hexx := (exclusive_iff s).mp hex x
  have hsz := toSizeT_of_nonneg (le_trans (by decide) hpos.2.2.1) hpos.2.2.2
  have hd1 := hpos.2.2.1
  have hlen := hcap.2.2
  by_cases habs : Absent s a
  · rw [if_pos habs]
    have ha1 := count_zero_of_not_mem _ _ habs.1
    have ha2 := count_zero_of_not_mem _ _ habs.2.1
    have ha3 := count_zero_of_not_mem _ _ habs.2.2
    by_cases hfull : (s.disk.length : Int) = s.disk_size
    · have hne : s.disk ≠ [] := by
        intro h0
        rw [h0] at hfull
        simp only [List.length_nil, Nat.cast_zero] at hfull
        omega
      obtain ⟨v, rest, hdisk⟩ := List.exists_cons_of_ne_nil hne
      have hdrop : disk_after_drop s = rest := by
        unfold disk_after_drop
        rw [if_pos (by omega), hdisk]
        rfl
      have hhead : (s.disk.head? = some x) ↔ x = v := by
        rw [hdisk]
        simp only [List.head?_cons, Option.some.injEq]
        exact ⟨fun h => h.symm, fun h => h.symm⟩
      have hcd : List.count x s.disk = List.count x rest + (if x = v then 1 else 0) := by
        rw [hdisk]
        by_cases hxv : x = v
        · subst hxv; simp
        · rw [List.count_cons_of_ne hxv]; simp [hxv]
      have hva : List.count a s.disk = 0 := ha3
      rw [hdrop]
      simp only [habs, hfull, true_and, hhead]
      by_cases hxa : x = a
      · subst hxa
        simp
      · by_cases hxv : x = v
        · subst hxv
          simp only [if_true] at hcd
          simp only [hxa, if_false, false_or, not_true_eq_false, and_false, iff_false]
          omega
        · simp only [hxv, if_false] at hcd
          simp only [hxa, if_false, false_or, hxv, not_false_eq_true, and_true]
          omega
    · have hdrop : disk_after_drop s = s.disk := by
        unfold disk_after_drop
        rw [if_neg (by omega)]
      rw [hdrop]
      simp only [hfull, false_and, and_false, not_false_eq_true, and_true]
      by_cases hxa : x = a
      · subst hxa
        simp
      · simp only [hxa, if_false, false_or]
        omega
  · rw [if_neg habs]
    simp only [habs, false_and, not_false_eq_true, and_true]
    by_cases hxa : x = a
    · subst hxa
      simp only [true_or, iff_true]
      have hres : Resident s x := by
        unfold Resident
        unfold Absent at habs
        by_contra hcon
        exact habs ⟨fun h => hcon (Or.inl h), fun h => hcon (Or.inr (Or.inl h)),
          fun h => hcon (Or.inr (Or.inr h))⟩
      exact (resident_iff_count s x).mp hres
    · simp only [hxa, false_or]

/-- C20 (resident-set transition): for capacities at least 1, a state `s` reached from
construction by accesses and an address `a`, the call `access_memory(a)` returns, and an
address is resident afterwards iff it is `a` or it was resident before and is not the first
disk entry of a miss on a full disk (`a` in no tier and `|disk| = disk_size`).  Hence a hit
removes no address from the system and a miss removes at most one. -/
theorem C20_resident_set (c_size p_size d_size : Int) (hc : PosCap c_size)
    (hp : PosCap p_size) (hd : PosCap d_size) (addrs : List String) (s : MemorySimulator)
    (hs : boot_and_access c_size p_size d_size addrs = .ok s) (a : String) :
    ∃ lab s1, access_memory s a = .ok (lab, s1) ∧
      (∀ x, Resident s1 x ↔
        (x = a ∨ (Resident s x ∧
          ¬ (Absent s a ∧ (s.disk.length : Int) = s.disk_size ∧ s.disk.head? = some x)))) ∧
      (¬ Absent s a → ∀ x, Resident s x → Resident s1 x) ∧
      (∀ x y, Resident s x → ¬ Resident s1 x → Resident s y → ¬ Resident s1 y → x = y) := by
  obtain ⟨s0, hok, h1, h2, h3, hex, hcap⟩ :=
    boot_and_access_sound c_size p_size d_size hc hp hd addrs
  rw [hs] at hok
  have hs0 : s = s0 := by injection hok
  subst hs0
  have hpos : PosCaps s := by
    unfold PosCaps; rw [h1, h2, h3]; exact ⟨hc, hp, hd⟩
  obtain ⟨s1, hok1, hres⟩ := resident_after_access s a hpos hex hcap
  refine ⟨_, s1, hok1, hres, ?_, ?_⟩
  · intro hna x hx
    exact (hres x).mpr (Or.inr ⟨hx, fun h => hna h.1⟩)
  · intro x y hx hnx hy hny
    have kx : s.disk.head? = some x := by
      by_contra hcon
      exact hnx ((hres x).mpr (Or.inr ⟨hx, fun h => hcon h.2.2⟩))
    have ky : s.disk.head? = some y := by
      by_contra hcon
      exact hny ((hres y).mpr (Or.inr ⟨hy, fun h => hcon h.2.2⟩))
    rw [kx] at ky
    exact Option.some.inj ky

theorem C20_resident_set_witness :
    PosCap 1 ∧ boot_and_access 1 1 1 ["X", "Y"] = .ok full_simulator ∧
      ∃ lab s1, access_memory full_simulator "Z" = .ok (lab, s1) ∧
        (∀ x, Resident s1 x ↔
          (x = "Z" ∨ (Resident full_simulator x ∧
            ¬ (Absent full_simulator "Z" ∧
              (full_simulator.disk.length : Int) = full_simulator.disk_size ∧
              full_simulator.disk.head? = some x)))) ∧
        (¬ Absent full_simulator "Z" → ∀ x, Resident full_simulator x → Resident s1 x) ∧
        (∀ x y, Resident full_simulator x → ¬ Resident s1 x → Resident full_simulator y →
          ¬ Resident s1 y → x = y) :=
  ⟨by decide, rfl,
    C20_resident_set 1 1 1 (by decide) (by decide) (by decide) ["X", "Y"] full_simulator rfl
      "Z"⟩

end MemSim
